import Mathlib

/-!
Verification of the gblink-pokemon-web trade mediator.

Each definition is a shallow embedding of a function of the repository
(`GSCUtils.js`, `GSCChecks.js`, `GSCTradingDataUtils.js`, the RSESP Gen 3
utilities and the `GSCTrading` class).  Machine integers are modelled as
`Nat` with explicit masking where the JavaScript code masks; in-place
mutation of `Uint8Array` buffers is modelled as `List Nat` with `List.set`
(out-of-range `set` is a no-op, matching out-of-range stores on typed
arrays).
-/

namespace GBLink

/-! ### RSESPUtils.init_enc_positions (Gen 3 substructure permutation table)

The JavaScript builds, for every permutation (i, j, k, l) of (0, 1, 2, 3),
the byte `(0 << (i*2)) | (1 << (j*2)) | (2 << (k*2)) | (3 << (l*2))`. -/

def init_enc_positions : List Nat :=
  (List.range 4).flatMap (fun i =>
    (List.range 4).flatMap (fun j =>
      if j ≠ i then
        (List.range 4).flatMap (fun k =>
          if k ≠ i ∧ k ≠ j then
            (List.range 4).flatMap (fun l =>
              if l ≠ i ∧ l ≠ j ∧ l ≠ k then
                [(0 <<< (i * 2)) ||| (1 <<< (j * 2)) ||| (2 <<< (k * 2)) ||| (3 <<< (l * 2))]
              else [])
          else [])
      else []))

/-- Decoding of one permutation-table entry into its four 2-bit fields,
as the decryption code reads them: `(order >> (2*t)) & 3` for t = 0..3. -/
def decodePerm (e : Nat) : List Nat :=
  [e &&& 3, (e >>> 2) &&& 3, (e >>> 4) &&& 3, (e >>> 6) &&& 3]

/-! ### Counter-window acceptance (GSCTrading.getChosenMon / getAccepted /
getSuccess / receiveMVS2)

Each receiver holds `peerCounterId : Option Nat` (null until initialized).
On a message with counter `c` it decides acceptance and updates the
expected counter.  The CHC2 / ACP2 / SUC2 receivers share one shape
(reject iff `(c - e + 256) % 256 > 128`); the MVS2 receiver instead
accepts only an exact match or a difference of at most 2. -/

/-- The wrap-around difference `(counter - peerCounterId + 256) % 256`
computed by the JavaScript on byte-valued counters. -/
def counterDiff (c e : Nat) : Nat := (c + 256 - e) % 256

/-- One step of the CHC2 receiver's counter validation (`getChosenMon`):
returns whether the message is accepted together with the updated
expected counter. -/
def chc2Process (e : Option Nat) (c : Nat) : Bool × Option Nat :=
  match e with
  | none => (true, some ((c + 1) % 256))
  | some e =>
    if counterDiff c e > 128 then
      (false, some e)
    else
      -- sync to the incoming counter, then increment
      (true, some ((c + 1) % 256))

/-- One step of the ACP2 receiver's counter validation (`getAccepted`);
the code is the same branch structure as CHC2. -/
def acp2Process (e : Option Nat) (c : Nat) : Bool × Option Nat :=
  match e with
  | none => (true, some ((c + 1) % 256))
  | some e =>
    if counterDiff c e > 128 then (false, some e)
    else (true, some ((c + 1) % 256))

/-- One step of the SUC2 receiver's counter validation (`getSuccess`). -/
def suc2Process (e : Option Nat) (c : Nat) : Bool × Option Nat :=
  match e with
  | none => (true, some ((c + 1) % 256))
  | some e =>
    if counterDiff c e > 128 then (false, some e)
    else (true, some ((c + 1) % 256))

/-- One step of the MVS2 receiver's counter validation (`receiveMVS2`):
an exact counter match is accepted; a mismatch is accepted only when the
wrap-around difference is at most 2; otherwise the message is discarded. -/
def mvs2Process (e : Option Nat) (c : Nat) : Bool × Option Nat :=
  match e with
  | none => (true, some ((c + 1) % 256))
  | some e =>
    if c ≠ e then
      if counterDiff c e ≤ 2 then (true, some ((c + 1) % 256))
      else (false, some e)
    else (true, some ((c + 1) % 256))

/-! ### GSCUtils patch handling (createPatchesData / applyPatches)

Buffers are `List Nat`; `List.set` past the end is a no-op, exactly like
an out-of-range store on a `Uint8Array`. -/

def patch_set_base_pos : List Nat := [0x13, 0xC6, 0]

def patch_set_start_info_pos : List Nat := [7, 0x11A, 0xFC]

/-- `GSCUtils.getPatchSetNumIndex`: `[patchSetsNum, patchSetsIndex]`. -/
def getPatchSetNumIndex (isMail isJapanese : Bool) : Nat × Nat :=
  if isMail then (if isJapanese then (1, 2) else (1, 1)) else (2, 0)

/-- The `while` loop of `GSCUtils.applyPatches`, with loop variables made
explicit.  `remaining` counts patch sets still open; entry `0xFF` closes a
set and advances the page base; a positive in-range entry restores `0xFE`.
The structural `fuel` argument only bounds the iteration count; the loop
itself stops when `remaining` hits zero or the patch set is exhausted, and
it advances `i` every iteration, so `patchSet.length` iterations always
suffice. -/
def applyPatchesGo (patchSet : List Nat) (start : Nat) :
    Nat → List Nat → Nat → Nat → Nat → List Nat
  | 0, data, _, _, _ => data
  | fuel + 1, data, base, i, remaining =>
    if 0 < remaining ∧ start + i < patchSet.length then
      let readPos := patchSet.getD (start + i) 0
      if readPos = 0xFF then
        applyPatchesGo patchSet start fuel data (base + 0xFC) (i + 1) (remaining - 1)
      else if 0 < readPos ∧ readPos + base - 1 < data.length then
        applyPatchesGo patchSet start fuel (data.set (readPos + base - 1) 0xFE) base (i + 1)
          remaining
      else
        applyPatchesGo patchSet start fuel data base (i + 1) remaining
    else data

/-- `GSCUtils.applyPatches`. -/
def applyPatches (data patchSet : List Nat) (isMail isJapanese : Bool) : List Nat :=
  let p := getPatchSetNumIndex isMail isJapanese
  applyPatchesGo patchSet (patch_set_start_info_pos.getD p.2 0) patchSet.length data
    (patch_set_base_pos.getD p.2 0) 0 p.1

/-- The `while` loop of `GSCUtils.createPatchesData`.  Returns the escaped
data, the filled patch set and the final values of the loop variables
`i` and `j`.  The structural `fuel` only bounds the iteration count: each
iteration advances the scanned data position `base + j` by one and the
loop stops once `base + j` reaches `data.length`, so `data.length`
iterations always suffice. -/
def createPatchesGo (start : Nat) :
    Nat → List Nat → List Nat → Nat → Nat → Nat → Nat → List Nat × List Nat × Nat × Nat
  | 0, data, patchSet, _, i, j, _ => (data, patchSet, i, j)
  | fuel + 1, data, patchSet, base, i, j, remaining =>
    if 0 < remaining ∧ start + i < patchSet.length ∧ base + j < data.length then
      let readData := data.getD (base + j) 0
      let data' := if readData = 0xFE then data.set (base + j) 0xFF else data
      let patchSet' := if readData = 0xFE then patchSet.set (start + i) (j + 1) else patchSet
      let i' := if readData = 0xFE then i + 1 else i
      if j + 1 = 0xFC then
        createPatchesGo start fuel data' (patchSet'.set (start + i') 0xFF) (base + 0xFC)
          (i' + 1) 0 (remaining - 1)
      else
        createPatchesGo start fuel data' patchSet' base i' (j + 1) remaining
    else (data, patchSet, i, j)

/-- The epilogue of `GSCUtils.createPatchesData`: when the loop stopped
mid-page (`j ≠ 0`) a trailing `0xFF` terminator is written; if its
position would overflow the patch set the code clamps it to the last
patch-set byte. -/
def patchTrailing (start : Nat) (r : List Nat × List Nat × Nat × Nat) :
    List Nat × List Nat :=
  if r.2.2.2 ≠ 0 then
    (r.1, r.2.1.set
      (if start + r.2.2.1 ≥ r.2.1.length then r.2.1.length - 1 else start + r.2.2.1) 0xFF)
  else
    (r.1, r.2.1)

/-- The encode continuation from an arbitrary loop state: finish the
`createPatchesData` loop, then write the trailing terminator. -/
def encodeFrom (start fuel : Nat) (data patchSet : List Nat)
    (base i j remaining : Nat) : List Nat × List Nat :=
  patchTrailing start (createPatchesGo start fuel data patchSet base i j remaining)

/-- `GSCUtils.createPatchesData`. -/
def createPatchesData (data patchSet : List Nat) (isMail isJapanese : Bool) :
    List Nat × List Nat :=
  let p := getPatchSetNumIndex isMail isJapanese
  encodeFrom (patch_set_start_info_pos.getD p.2 0) data.length data patchSet
    (patch_set_base_pos.getD p.2 0) 0 0 p.1

/-- The number of `0xFE` bytes of `data` at positions in `[a, b)`. -/
def countFE (data : List Nat) (a b : Nat) : Nat :=
  ((List.range' a (b - a)).filter (fun p => data.getD p 0 == 0xFE)).length

/-! ### GSCTrading.negotiateBufferedMode tiebreak loop

`draws k` is the pair `(ourNegValue, peerNegValue)` of random bytes of
round `k` (`none` when no peer reply arrived that round).  The loop runs
while no winner is decided and fewer than `MAX_ATTEMPTS = 10` rounds have
elapsed; `some true` means the local side lost and must adapt (it is the
side shown the prompt), `some false` means the peer adapts. -/

def tiebreakLoop (draws : Nat → Option (Nat × Nat)) (attempts : Nat) : Option Bool :=
  if h : attempts < 10 then
    match draws attempts with
    | some (our, peer) =>
      if peer > our then some true
      else if peer < our then some false
      else tiebreakLoop draws (attempts + 1)
    | none => tiebreakLoop draws (attempts + 1)
  else
    none
termination_by 10 - attempts
decreasing_by all_goals omega

/-- Result of the Step 1 tiebreak exchange (`weAdapt`). -/
def negotiationResult (draws : Nat → Option (Nat × Nat)) : Option Bool :=
  tiebreakLoop draws 0

/-- The `isBuffered` flag right after the tiebreak loop: on failure to
pick a winner the code falls back to Synchronous (`isBuffered = false`);
otherwise the flag is not changed at this point. -/
def modeAfterTiebreak (isBuffered : Bool) (draws : Nat → Option (Nat × Nat)) : Bool :=
  match negotiationResult draws with
  | none => false
  | some _ => isBuffered

/-! ### Gen 3 (RSESP) record decryption and encryption

A record is the 100-byte `values` buffer.  `RSESPUtils.readInt` /
`readShort` are little-endian unsigned reads; the JavaScript `>>> 0`
coercion is the identity on byte-built values. -/

/-- `RSESPUtils.readInt` (little-endian u32). -/
def readInt (l : List Nat) (off : Nat) : Nat :=
  l.getD off 0 ||| (l.getD (off + 1) 0 <<< 8) ||| (l.getD (off + 2) 0 <<< 16) |||
    (l.getD (off + 3) 0 <<< 24)

/-- `RSESPUtils.readShort` (little-endian u16). -/
def readShort (l : List Nat) (off : Nat) : Nat :=
  l.getD off 0 ||| (l.getD (off + 1) 0 <<< 8)

/-- The four bytes `(w >>> (8*j)) & 0xFF`, j = 0..3, pushed for each
32-bit word. -/
def wordBytesLE (w : Nat) : List Nat :=
  [w &&& 0xFF, (w >>> 8) &&& 0xFF, (w >>> 16) &&& 0xFF, (w >>> 24) &&& 0xFF]

/-- One decrypted word of `_decryptAndValidate`:
`readInt(values, 32 + 4*i) ^ pid ^ ot_id`. -/
def decWord (values : List Nat) (i : Nat) : Nat :=
  readInt values (32 + 4 * i) ^^^ readInt values 0 ^^^ readInt values 4

/-- The `decrypted_data` byte array built by `_decryptAndValidate`. -/
def decryptedData (values : List Nat) : List Nat :=
  (List.range 12).flatMap (fun i => wordBytesLE (decWord values i))

/-- The running 16-bit checksum of `_decryptAndValidate`: low then high
half of each decrypted word added into a `& 0xFFFF`-wrapped accumulator. -/
def decChecksum (values : List Nat) : Nat :=
  (List.range 12).foldl
    (fun acc i =>
      ((acc + (decWord values i &&& 0xFFFF)) &&& 0xFFFF) +
          ((decWord values i >>> 16) &&& 0xFFFF) &&& 0xFFFF)
    0

/-- The parsed Gen 3 record: the raw buffer, the four unshuffled
substructures, and the checksum flag. -/
structure RSESPMon where
  values : List Nat
  growth : List Nat
  attacks : List Nat
  evs : List Nat
  misc : List Nat
  checksumFailed : Bool

/-- `decrypted_data.slice(12*p, 12*(p+1))`. -/
def subSlice (dd : List Nat) (p : Nat) : List Nat := (dd.drop (12 * p)).take 12

/-- `RSESPTradingPokemonInfo._decryptAndValidate` (decryption, checksum
comparison and substructure unshuffling). -/
def decryptAndValidate (values : List Nat) : RSESPMon :=
  let dd := decryptedData values
  let storedChecksum := readShort values 28
  let index := readInt values 0 % init_enc_positions.length
  let order := init_enc_positions.getD index 0
  { values := values
    growth := subSlice dd (order &&& 3)
    attacks := subSlice dd ((order >>> 2) &&& 3)
    evs := subSlice dd ((order >>> 4) &&& 3)
    misc := subSlice dd ((order >>> 6) &&& 3)
    checksumFailed := decide (decChecksum values ≠ storedChecksum) }

/-- The validation chain run after decryption: valid iff the checksum
matched and every data-table gate passes (the gates read species / move /
ability tables that live in data files, so they are abstract here). -/
def monIsValid (speciesOk movesOk abilityOk isBadEgg : RSESPMon → Bool)
    (m : RSESPMon) : Bool :=
  !m.checksumFailed && speciesOk m && movesOk m && abilityOk m && !isBadEgg m

/-- `encryptData`'s reverse shuffle, inner loop over `j`: the
substructure `j` whose 2-bit field equals the physical position `i`. -/
def pickFor (order i : Nat) (g a e m : List Nat) : List Nat :=
  (if order &&& 3 = i then g else []) ++
    (if (order >>> 2) &&& 3 = i then a else []) ++
      (if (order >>> 4) &&& 3 = i then e else []) ++
        (if (order >>> 6) &&& 3 = i then m else [])

/-- `encryptData`'s reverse shuffle, outer loop over positions 0..3. -/
def reassembled (order : Nat) (g a e m : List Nat) : List Nat :=
  pickFor order 0 g a e m ++ pickFor order 1 g a e m ++ pickFor order 2 g a e m ++
    pickFor order 3 g a e m

/-- The 16-bit checksum recomputed by `encryptData` over the reassembled
plaintext. -/
def encChecksum (dd : List Nat) : Nat :=
  (List.range 12).foldl
    (fun acc i =>
      ((acc + (readInt dd (4 * i) &&& 0xFFFF)) &&& 0xFFFF) +
          ((readInt dd (4 * i) >>> 16) &&& 0xFFFF) &&& 0xFFFF)
    0

/-- Sequential byte stores (`values[encDataPos + i] = encrypted_data[i]`). -/
def writeBytes (l : List Nat) (pos : Nat) : List Nat → List Nat
  | [] => l
  | b :: bs => writeBytes (l.set pos b) (pos + 1) bs

/-- `RSESPUtils.writeShort` (little-endian u16 store). -/
def writeShort (l : List Nat) (pos val : Nat) : List Nat :=
  (l.set pos (val &&& 0xFF)).set (pos + 1) ((val >>> 8) &&& 0xFF)

/-- `RSESPTradingPokemonInfo.encryptData`: re-shuffle the substructures,
recompute the checksum (incremented by one if the original record's
checksum had failed), re-encrypt with `pid ^ ot_id` and store. -/
def encryptData (values g a e m : List Nat) (checksumFailed : Bool) : List Nat :=
  let pid := readInt values 0
  let ot := readInt values 4
  let order := init_enc_positions.getD (pid % init_enc_positions.length) 0
  let dd := reassembled order g a e m
  let encBytes := (List.range 12).flatMap (fun i => wordBytesLE (readInt dd (4 * i) ^^^ pid ^^^ ot))
  let cks0 := encChecksum dd
  let cks := if checksumFailed then (cks0 + 1) &&& 0xFFFF else cks0
  writeShort (writeBytes values 32 encBytes) 28 cks

/-! ### GSCTradingPartyInfo / GSCTradingData (party structure and trading)

`total` is the clamped party count, `species` the 6-byte species list
(`actualMons`), `mons` the `pokemon` array of parsed records (`α` is the
record type, irrelevant to the party bookkeeping). -/

structure GSCParty (α : Type) where
  total : Nat
  species : List Nat
  mons : List α

/-- The count clamp of the `GSCTradingPartyInfo` constructor:
`if (total <= 0 || total > 6) total = 1`. -/
def clampTotal (b : Nat) : Nat := if b = 0 ∨ b > 6 then 1 else b

/-- `GSCTradingPartyInfo.getId`. -/
def partyGetId {α : Type} (p : GSCParty α) (pos : Nat) : Nat :=
  if pos < 6 then p.species.getD pos 0 else 0

/-- `GSCTradingPartyInfo.setId` (`val & 0xFF`). -/
def partySetId {α : Type} (p : GSCParty α) (pos v : Nat) : GSCParty α :=
  { p with species := if pos < 6 then p.species.set pos (v &&& 0xFF) else p.species }

/-- The shift loop of `GSCTradingData.reorderParty`:
`for (i = tradedPos + 1; i < partySize; i++)` moves slot `i` into `i-1`.
The structural `fuel` only bounds the iteration count; the loop stops by
itself once `i` reaches the (unchanging) party size, so `p.total`
iterations always suffice. -/
def reorderLoop {α : Type} [Inhabited α] : Nat → GSCParty α → Nat → GSCParty α
  | 0, p, _ => p
  | fuel + 1, p, i =>
    if i < p.total then
      let q := partySetId p (i - 1) (partyGetId p i)
      reorderLoop fuel { q with mons := q.mons.set (i - 1) (q.mons.getD i default) } (i + 1)
    else p

/-- `GSCTradingData.reorderParty`: move the traded slot to the end of the
party, shifting the following slots down. -/
def reorderParty {α : Type} [Inhabited α] (p : GSCParty α) (tradedPos : Nat) : GSCParty α :=
  if tradedPos ≥ p.total then p
  else
    let paInfo := partyGetId p tradedPos
    let poData := p.mons.getD tradedPos default
    let q := reorderLoop p.total p (tradedPos + 1)
    let r := partySetId q (p.total - 1) paInfo
    { r with mons := r.mons.set (p.total - 1) poData }

/-! ### GSCChecks: team-size and species-slot cleaning (sanity checks
enabled) -/

/-- `GSCChecks.cleanValue`. -/
def cleanValue (value : Nat) (ok : Bool) (defaultValue : Nat) : Nat :=
  if ok then value else defaultValue

/-- `GSCChecks.isTeamSizeValid`. -/
def isTeamSizeValid (teamSize : Nat) : Bool := 0 < teamSize && teamSize ≤ 6

/-- `GSCChecks.cleanTeamSize`. -/
def cleanTeamSize (v : Nat) : Nat := cleanValue v (isTeamSizeValid v) 1

/-- The checker state threaded through the species-list cleaner:
the cleaned team size, the species pushed so far, the count of retained
(non-`0xFF`, non-`0x00`) species, and the slot cursor. -/
structure SpState where
  teamSize : Nat
  speciesList : List Nat
  speciesListSize : Nat
  currSpeciesPos : Nat

/-- `GSCChecks.addToSpeciesList`. -/
def addToSpeciesList (st : SpState) (species : Nat) : SpState :=
  { st with
    speciesList := st.speciesList ++ [species]
    speciesListSize :=
      if species ≠ 0xFF ∧ species ≠ 0x00 then st.speciesListSize + 1
      else st.speciesListSize }

/-- `GSCChecks.cleanSpeciesSp`; `bad` is the `bad_ids_pokemon` bitmap (a
data file, abstract here).  Returns the new state and the cleaned byte. -/
def cleanSpeciesSp (bad : Nat → Bool) (st : SpState) (v : Nat) : SpState × Nat :=
  if v = 0xFF ∨ st.teamSize ≤ st.speciesListSize then
    (addToSpeciesList { st with currSpeciesPos := st.currSpeciesPos + 1 } 0xFF, 0xFF)
  else
    let found0 := cleanValue v (!bad v) 0x13
    let found := if v = 0xFD then v else found0
    (addToSpeciesList { st with currSpeciesPos := st.currSpeciesPos + 1 } found, found)

/-- Running `cleanSpeciesSp` over consecutive species-list bytes. -/
def cleanSpeciesRun (bad : Nat → Bool) (st : SpState) : List Nat → List Nat × SpState
  | [] => ([], st)
  | v :: vs =>
    let p := cleanSpeciesSp bad st v
    let r := cleanSpeciesRun bad p.1 vs
    (p.2 :: r.1, r.2)

/-- Cleaning a party header: the count byte through `cleanTeamSize`, then
the six species-list bytes through `cleanSpeciesSp` starting from a fresh
species list (as `resetSpeciesItemList` provides). -/
def cleanPartyHeader (bad : Nat → Bool) (countByte : Nat) (slots : List Nat) :
    Nat × List Nat :=
  let ts := cleanTeamSize countByte
  (ts, (cleanSpeciesRun bad ⟨ts, [], 0, 0⟩ slots).1)

/-- `GSCTradingData.tradeMon`: reorder both parties, then swap the last
slots (record and species id). -/
def tradeMon {α : Type} [Inhabited α] (a b : GSCParty α) (ownIndex otherIndex : Nat) :
    GSCParty α × GSCParty α :=
  let a1 := reorderParty a ownIndex
  let b1 := reorderParty b otherIndex
  let tempA := a1.mons.getD (a1.total - 1) default
  let tempB := b1.mons.getD (b1.total - 1) default
  let a2 := { a1 with mons := a1.mons.set (a1.total - 1) tempB }
  let b2 := { b1 with mons := b1.mons.set (b1.total - 1) tempA }
  let idA := partyGetId a2 (a2.total - 1)
  let idB := partyGetId b2 (b2.total - 1)
  (partySetId a2 (a2.total - 1) idB, partySetId b2 (b2.total - 1) idA)

end GBLink

namespace GBLink

/-- Disjoint-range bitwise or is addition: the little-endian byte lanes of
the JavaScript reads never overlap. -/
theorem lor_shiftLeft_eq_add (x y k : Nat) (hx : x < 2 ^ k) :
    x ||| (y <<< k) = x + y * 2 ^ k := by
  rw [Nat.shiftLeft_eq]
  apply Nat.eq_of_testBit_eq
  intro i
  rw [Nat.testBit_or]
  rcases Nat.lt_or_ge i k with hik | hik
  · obtain ⟨d, rfl⟩ : ∃ d, k = i + 1 + d := ⟨k - (i + 1), by omega⟩
    have h2 : (2 : Nat) ^ (i + 1 + d) = 2 ^ (1 + d) * 2 ^ i := by
      rw [← pow_add]; ring_nf
    have hmul : Nat.testBit (y * 2 ^ (i + 1 + d)) i = false := by
      rw [Nat.testBit_to_div_mod, h2, ← Nat.mul_assoc, Nat.mul_div_cancel _ (Nat.two_pow_pos i)]
      have he : y * 2 ^ (1 + d) = y * 2 ^ d * 2 := by ring
      rw [he, Nat.mul_mod_left]
      simp
    have hadd : Nat.testBit (x + y * 2 ^ (i + 1 + d)) i = Nat.testBit x i := by
      rw [Nat.testBit_to_div_mod, Nat.testBit_to_div_mod, h2, ← Nat.mul_assoc,
        Nat.add_mul_div_right _ _ (Nat.two_pow_pos i)]
      have he : y * 2 ^ (1 + d) = y * 2 ^ d * 2 := by ring
      rw [he, Nat.add_mul_mod_self_right]
    rw [hmul, hadd, Bool.or_false]
  · obtain ⟨d, rfl⟩ : ∃ d, i = k + d := ⟨i - k, by omega⟩
    have hxlt : x < 2 ^ (k + d) := lt_of_lt_of_le hx (Nat.pow_le_pow_right (by norm_num) (by omega))
    have hxbit : Nat.testBit x (k + d) = false := Nat.testBit_lt_two_pow hxlt
    have h2 : (2 : Nat) ^ (k + d) = 2 ^ d * 2 ^ k := by rw [← pow_add]; ring_nf
    have hmul : Nat.testBit (y * 2 ^ k) (k + d) = Nat.testBit y d := by
      rw [Nat.testBit_to_div_mod, Nat.testBit_to_div_mod, h2,
        Nat.mul_div_mul_right _ _ (Nat.two_pow_pos k)]
    have hadd : Nat.testBit (x + y * 2 ^ k) (k + d) = Nat.testBit y d := by
      rw [Nat.testBit_to_div_mod, Nat.testBit_to_div_mod, pow_add,
        ← Nat.div_div_eq_div_mul, Nat.add_mul_div_right _ _ (Nat.two_pow_pos k),
        Nat.div_eq_of_lt hx, Nat.zero_add]
    rw [hmul, hadd, hxbit, Bool.false_or]

/-- `getD` after `set`, in the form used throughout this file. -/
theorem getD_set (l : List Nat) (p k v : Nat) :
    (l.set p v).getD k 0 = if p = k ∧ p < l.length then v else l.getD k 0 := by
  simp only [List.getD_eq_getElem?_getD, List.getElem?_set']
  by_cases hpk : p = k
  · subst hpk
    by_cases hp : p < l.length
    · simp [hp, List.getElem?_eq_getElem hp]
    · simp [hp, List.getElem?_eq_none (by omega : l.length ≤ p)]
  · simp [hpk]

/-- Safety of the `applyPatches` loop, by strong induction on the number
of unread patch-set bytes: the data length never changes and every byte is
either untouched or overwritten with `0xFE` at an in-range position. -/
theorem applyPatchesGo_safe (ps : List Nat) (start : Nat) :
    ∀ fuel data base i r,
      (applyPatchesGo ps start fuel data base i r).length = data.length ∧
      ∀ k, (applyPatchesGo ps start fuel data base i r).getD k 0 = data.getD k 0 ∨
        ((applyPatchesGo ps start fuel data base i r).getD k 0 = 0xFE ∧ k < data.length) := by
  intro fuel
  induction fuel with
  | zero =>
    intro data base i r
    exact ⟨rfl, fun k => Or.inl rfl⟩
  | succ n ih =>
    intro data base i r
    rw [applyPatchesGo]
    by_cases hc : 0 < r ∧ start + i < ps.length
    · rw [if_pos hc]
      dsimp only
      split
      · exact ih data (base + 0xFC) (i + 1) (r - 1)
      · split
        · rename_i hpos
          obtain ⟨hlen, hpt⟩ :=
            ih (data.set (ps.getD (start + i) 0 + base - 1) 0xFE) base (i + 1) r
          refine ⟨by simpa using hlen, fun k => ?_⟩
          rcases hpt k with hk | hk
          · rw [hk, getD_set]
            split
            · rename_i hcond
              exact Or.inr ⟨rfl, by omega⟩
            · exact Or.inl rfl
          · exact Or.inr ⟨hk.1, by simpa using hk.2⟩
        · exact ih data base (i + 1) r
    · rw [if_neg hc]
      exact ⟨rfl, fun k => Or.inl rfl⟩

/-- C10 (patch application is total and in-bounds): for every data buffer
and patch-set buffer, `applyPatches` (a total function) preserves the data
length, and every byte of the result is either the original byte or `0xFE`
written at an in-range position; in particular no out-of-bounds position
is ever mutated.  Patch entries equal to `0` or mapping out of range are
skipped by the guard in `applyPatchesGo` and leave the buffer unchanged. -/
theorem applyPatches_safe (data patchSet : List Nat) (isMail isJapanese : Bool) :
    (applyPatches data patchSet isMail isJapanese).length = data.length ∧
    ∀ k, (applyPatches data patchSet isMail isJapanese).getD k 0 = data.getD k 0 ∨
      ((applyPatches data patchSet isMail isJapanese).getD k 0 = 0xFE ∧ k < data.length) :=
  applyPatchesGo_safe _ _ patchSet.length data _ 0 _

/-! ### C2: counter-window acceptance -/

/-- C2 counterexample: an MVS2 message whose counter is 3 ahead of the
expected counter has wrap-around difference `3 ≤ 128`, yet `receiveMVS2`
discards it (its window is `≤ 2`, not `≤ 128`). -/
theorem counter_window_counterexample :
    counterDiff 3 0 ≤ 128 ∧ (mvs2Process (some 0) 3).1 = false := by decide

/-- C2 (amended): with the expected peer counter `e` initialized, a CHC2,
ACP2 or SUC2 message with counter `c` is accepted iff
`(c - e + 256) % 256 ≤ 128`, while an MVS2 message is accepted iff
`(c - e + 256) % 256 ≤ 2`; an accepted message syncs the expected counter
to `(c + 1) % 256` and a discarded one leaves it unchanged. -/
theorem counter_window_amended (c e : Nat) (hc : c < 256) (he : e < 256) :
    ((chc2Process (some e) c).1 = true ↔ counterDiff c e ≤ 128) ∧
    ((acp2Process (some e) c).1 = true ↔ counterDiff c e ≤ 128) ∧
    ((suc2Process (some e) c).1 = true ↔ counterDiff c e ≤ 128) ∧
    ((mvs2Process (some e) c).1 = true ↔ counterDiff c e ≤ 2) ∧
    (∀ pr : Bool × Option Nat,
      pr = chc2Process (some e) c ∨ pr = acp2Process (some e) c ∨
      pr = suc2Process (some e) c ∨ pr = mvs2Process (some e) c →
      pr.2 = some (if pr.1 then (c + 1) % 256 else e)) := by
  have hd : counterDiff c e = (c + 256 - e) % 256 := rfl
  refine ⟨?_, ?_, ?_, ?_, ?_⟩
  · simp only [chc2Process]
    split <;> simp <;> omega
  · simp only [acp2Process]
    split <;> simp <;> omega
  · simp only [suc2Process]
    split <;> simp <;> omega
  · simp only [mvs2Process]
    split
    · split <;> simp_all
    · rename_i hce
      simp only [not_ne_iff] at hce
      subst hce
      simp only [true_iff]
      show (c + 256 - c) % 256 ≤ 2
      omega
  · intro pr hpr
    have hchc : (chc2Process (some e) c).2 =
        some (if (chc2Process (some e) c).1 then (c + 1) % 256 else e) := by
      simp only [chc2Process]
      split <;> simp
    have hacp : (acp2Process (some e) c).2 =
        some (if (acp2Process (some e) c).1 then (c + 1) % 256 else e) := by
      simp only [acp2Process]
      split <;> simp
    have hsuc : (suc2Process (some e) c).2 =
        some (if (suc2Process (some e) c).1 then (c + 1) % 256 else e) := by
      simp only [suc2Process]
      split <;> simp
    have hmvs : (mvs2Process (some e) c).2 =
        some (if (mvs2Process (some e) c).1 then (c + 1) % 256 else e) := by
      simp only [mvs2Process]
      split
      · split <;> simp
      · simp
    rcases hpr with rfl | rfl | rfl | rfl
    · exact hchc
    · exact hacp
    · exact hsuc
    · exact hmvs

/-- Witness for `counter_window_amended` at `c = 3`, `e = 0`: a CHC2
message 3 ahead of the expected counter is accepted. -/
theorem counter_window_amended_witness : (chc2Process (some 0) 3).1 = true :=
  ((counter_window_amended 3 0 (by decide) (by decide)).1).mpr (by decide)

/-! ### C9: mode-negotiation tiebreak -/

/-- A tie (or a missing peer reply) at an attempt below the cap leaves the
loop running on the next attempt. -/
theorem tiebreakLoop_step_tie (draws : Nat → Option (Nat × Nat)) (a : Nat)
    (ha : a < 10)
    (htie : draws a = none ∨ ∃ v, draws a = some (v, v)) :
    tiebreakLoop draws a = tiebreakLoop draws (a + 1) := by
  rw [tiebreakLoop]
  rcases htie with hnone | ⟨v, hv⟩
  · simp [ha, hnone]
  · simp [ha, hv]

/-- C9 (mode-negotiation tiebreak): if round `k < 10` is the first round
whose two random draws differ, the loop returns `some (our < peer)` — the
strictly higher draw wins, and the local side adapts (is prompted) exactly
when the peer's draw is higher; equal draws decide nothing and are
redrawn; and if every round up to the cap of 10 is a tie (or missing), no
winner is determined and the local mode defaults to Synchronous
(`isBuffered = false`). -/
theorem negotiation_tiebreak :
    (∀ (draws : Nat → Option (Nat × Nat)) (k our peer : Nat), k < 10 →
      draws k = some (our, peer) → our ≠ peer →
      (∀ m, m < k → draws m = none ∨ ∃ v, draws m = some (v, v)) →
      negotiationResult draws = some (decide (our < peer))) ∧
    (∀ (draws : Nat → Option (Nat × Nat)) (isBuffered : Bool),
      (∀ m, m < 10 → draws m = none ∨ ∃ v, draws m = some (v, v)) →
      negotiationResult draws = none ∧ modeAfterTiebreak isBuffered draws = false) := by
  have hrun : ∀ (draws : Nat → Option (Nat × Nat)) (a : Nat),
      (∀ m, m < a → draws m = none ∨ ∃ v, draws m = some (v, v)) →
      a ≤ 10 → tiebreakLoop draws 0 = tiebreakLoop draws a := by
    intro draws a
    induction a with
    | zero => intro _ _; rfl
    | succ a ih =>
      intro hties h10
      have := ih (fun m hm => hties m (by omega)) (by omega)
      rw [this, tiebreakLoop_step_tie draws a (by omega) (hties a (by omega))]

  constructor
  · intro draws k our peer hk hd hne hprev
    have h0 : negotiationResult draws = tiebreakLoop draws k :=
      hrun draws k hprev (by omega)
    rw [h0, tiebreakLoop]
    rcases Nat.lt_or_ge our peer with hlt | hge
    · simp [hk, hd, hlt]
    · have hgt : peer < our := by omega
      simp [hk, hd, hgt, Nat.not_lt.mpr hge, Nat.lt_asymm hgt]
  · intro draws isBuffered hties
    have h0 : negotiationResult draws = tiebreakLoop draws 10 :=
      hrun draws 10 hties le_rfl
    have h1 : tiebreakLoop draws 10 = none := by
      rw [tiebreakLoop]; simp
    have h2 : negotiationResult draws = none := h0.trans h1
    exact ⟨h2, by simp [modeAfterTiebreak, h2]⟩

/-- Witness for `negotiation_tiebreak`: with draws `(1, 2)` in round 0 the
local side (draw 1) loses to the peer (draw 2) and must adapt. -/
theorem negotiation_tiebreak_witness :
    negotiationResult (fun _ => some (1, 2)) = some true :=
  negotiation_tiebreak.1 (fun _ => some (1, 2)) 0 1 2 (by omega) rfl (by omega)
    (fun m hm => absurd hm (by omega))

/-! Numeric helpers: the JavaScript masks and shifts on byte-built
values, in `%` / `/` form. -/

theorem and3 (x : Nat) : x &&& 3 = x % 4 := by
  have h := Nat.and_pow_two_sub_one_eq_mod x 2
  norm_num at h
  exact h

theorem and255 (x : Nat) : x &&& 255 = x % 256 := by
  have h := Nat.and_pow_two_sub_one_eq_mod x 8
  norm_num at h
  exact h

theorem and65535 (x : Nat) : x &&& 65535 = x % 65536 := by
  have h := Nat.and_pow_two_sub_one_eq_mod x 16
  norm_num at h
  exact h

theorem shiftr8 (x : Nat) : x >>> 8 = x / 256 := by
  have h := Nat.shiftRight_eq_div_pow x 8
  norm_num at h
  exact h

theorem shiftr16 (x : Nat) : x >>> 16 = x / 65536 := by
  have h := Nat.shiftRight_eq_div_pow x 16
  norm_num at h
  exact h

theorem shiftr24 (x : Nat) : x >>> 24 = x / 16777216 := by
  have h := Nat.shiftRight_eq_div_pow x 24
  norm_num at h
  exact h

theorem lor8 (x y : Nat) (hx : x < 256) : x ||| (y <<< 8) = x + y * 256 := by
  have h := lor_shiftLeft_eq_add x y 8 (by norm_num; omega)
  norm_num at h
  exact h

theorem lor16 (x y : Nat) (hx : x < 65536) : x ||| (y <<< 16) = x + y * 65536 := by
  have h := lor_shiftLeft_eq_add x y 16 (by norm_num; omega)
  norm_num at h
  exact h

theorem lor24 (x y : Nat) (hx : x < 16777216) : x ||| (y <<< 24) = x + y * 16777216 := by
  have h := lor_shiftLeft_eq_add x y 24 (by norm_num; omega)
  norm_num at h
  exact h

theorem readInt_eq_sum (l : List Nat) (off : Nat)
    (h0 : l.getD off 0 < 256) (h1 : l.getD (off + 1) 0 < 256)
    (h2 : l.getD (off + 2) 0 < 256) (h3 : l.getD (off + 3) 0 < 256) :
    readInt l off = l.getD off 0 + l.getD (off + 1) 0 * 256 +
      l.getD (off + 2) 0 * 65536 + l.getD (off + 3) 0 * 16777216 := by
  unfold readInt
  rw [lor8 _ _ h0, lor16 _ _ (by omega), lor24 _ _ (by omega)]

theorem readShort_eq_sum (l : List Nat) (off : Nat) (h0 : l.getD off 0 < 256) :
    readShort l off = l.getD off 0 + l.getD (off + 1) 0 * 256 := by
  unfold readShort
  rw [lor8 _ _ h0]

theorem getD_lt_256 (l : List Nat) (hb : ∀ b ∈ l, b < 256) (k : Nat) : l.getD k 0 < 256 := by
  rcases Nat.lt_or_ge k l.length with h | h
  · rw [List.getD_eq_getElem l 0 h]
    exact hb _ (List.getElem_mem h)
  · rw [List.getD_eq_default l 0 h]
    norm_num

theorem readInt_lt (l : List Nat) (off : Nat) (hb : ∀ b ∈ l, b < 256) :
    readInt l off < 4294967296 := by
  rw [readInt_eq_sum l off (getD_lt_256 l hb off) (getD_lt_256 l hb (off + 1))
    (getD_lt_256 l hb (off + 2)) (getD_lt_256 l hb (off + 3))]
  have b0 := getD_lt_256 l hb off
  have b1 := getD_lt_256 l hb (off + 1)
  have b2 := getD_lt_256 l hb (off + 2)
  have b3 := getD_lt_256 l hb (off + 3)
  omega

theorem decWord_lt (values : List Nat) (hb : ∀ b ∈ values, b < 256) (i : Nat) :
    decWord values i < 4294967296 := by
  have h32 : (4294967296 : Nat) = 2 ^ 32 := by norm_num
  unfold decWord
  rw [h32]
  exact Nat.xor_lt_two_pow
    (Nat.xor_lt_two_pow (h32 ▸ readInt_lt values _ hb) (h32 ▸ readInt_lt values 0 hb))
    (h32 ▸ readInt_lt values 4 hb)

theorem flatMap_range_length (f : Nat → List Nat) (c : Nat) (h : ∀ i, (f i).length = c) :
    ∀ n, ((List.range n).flatMap f).length = c * n := by
  intro n
  induction n with
  | zero => simp
  | succ n ih =>
    rw [List.range_succ, List.flatMap_append, List.length_append, ih]
    simp [h n, Nat.mul_succ]

theorem flatMap_range_getD (f : Nat → List Nat) (c : Nat) (h : ∀ i, (f i).length = c) :
    ∀ n i t, i < n → t < c → ((List.range n).flatMap f).getD (c * i + t) 0 = (f i).getD t 0 := by
  intro n
  induction n with
  | zero => intro i t hi; omega
  | succ n ih =>
    intro i t hi ht
    rw [List.range_succ, List.flatMap_append]
    rcases Nat.lt_or_ge i n with hin | hin
    · rw [List.getD_append]
      · exact ih i t hin ht
      · rw [flatMap_range_length f c h n]
        calc c * i + t < c * i + c := by omega
        _ ≤ c * n := by
            have h1 : i + 1 ≤ n := hin
            calc c * i + c = c * (i + 1) := by ring
            _ ≤ c * n := Nat.mul_le_mul_left c h1
    · have hieq : i = n := by omega
      subst hieq
      rw [List.getD_append_right]
      · rw [flatMap_range_length f c h]
        simp [Nat.add_sub_cancel_left]
      · rw [flatMap_range_length f c h]; omega

theorem readInt_decryptedData (values : List Nat) (hb : ∀ b ∈ values, b < 256)
    (i : Nat) (hi : i < 12) :
    readInt (decryptedData values) (4 * i) = decWord values i := by
  have hw := decWord_lt values hb i
  have hlen : ∀ j, (wordBytesLE (decWord values j)).length = 4 := fun j => rfl
  have g0 := flatMap_range_getD _ 4 hlen 12 i 0 hi (by omega)
  have g1 := flatMap_range_getD _ 4 hlen 12 i 1 hi (by omega)
  have g2 := flatMap_range_getD _ 4 hlen 12 i 2 hi (by omega)
  have g3 := flatMap_range_getD _ 4 hlen 12 i 3 hi (by omega)
  rw [Nat.add_zero] at g0
  have w0 : (wordBytesLE (decWord values i)).getD 0 0 = decWord values i &&& 0xFF := rfl
  have w1 : (wordBytesLE (decWord values i)).getD 1 0 = (decWord values i >>> 8) &&& 0xFF := rfl
  have w2 : (wordBytesLE (decWord values i)).getD 2 0 = (decWord values i >>> 16) &&& 0xFF := rfl
  have w3 : (wordBytesLE (decWord values i)).getD 3 0 = (decWord values i >>> 24) &&& 0xFF := rfl
  unfold readInt decryptedData
  rw [g0, g1, g2, g3, w0, w1, w2, w3, and255, and255, and255, and255,
    shiftr8, shiftr16, shiftr24]
  rw [lor8 _ _ (by omega), lor16 _ _ (by omega), lor24 _ _ (by omega)]
  omega

/-- The 24-entry table, evaluated. -/
theorem enc_positions_eval : init_enc_positions =
    [228, 180, 216, 156, 120, 108, 225, 177, 210, 147, 114, 99,
     201, 141, 198, 135, 78, 75, 57, 45, 54, 39, 30, 27] := by decide

theorem concat_subSlices (dd : List Nat) (h : dd.length = 48) :
    subSlice dd 0 ++ (subSlice dd 1 ++ (subSlice dd 2 ++ subSlice dd 3)) = dd := by
  unfold subSlice
  norm_num
  symm
  calc dd = dd.take 48 := by rw [← h, List.take_length]
  _ = dd.take (12 + 36) := rfl
  _ = dd.take 12 ++ (dd.drop 12).take 36 := List.take_add dd 12 36
  _ = dd.take 12 ++ ((dd.drop 12).take (12 + 24)) := rfl
  _ = dd.take 12 ++ ((dd.drop 12).take 12 ++ ((dd.drop 12).drop 12).take 24) := by
      rw [List.take_add]
  _ = dd.take 12 ++ ((dd.drop 12).take 12 ++
        ((dd.drop 24).take 12 ++ ((dd.drop 24).drop 12).take 12)) := by
      rw [List.drop_drop]
      norm_num
      rw [show (24 : Nat) = 12 + 12 from rfl, List.take_add (dd.drop (12 + 12)) 12 12]
      norm_num
  _ = dd.take 12 ++ ((dd.drop 12).take 12 ++ ((dd.drop 24).take 12 ++ (dd.drop 36).take 12)) := by
      rw [List.drop_drop]

/-- Re-shuffling the four unshuffled substructures reproduces the
decrypted data, for every entry of the permutation table. -/
theorem reassembled_subSlice (dd : List Nat) (h : dd.length = 48) (o : Nat)
    (ho : o ∈ init_enc_positions) :
    reassembled o (subSlice dd (o &&& 3)) (subSlice dd ((o >>> 2) &&& 3))
      (subSlice dd ((o >>> 4) &&& 3)) (subSlice dd ((o >>> 6) &&& 3)) = dd := by
  rw [enc_positions_eval] at ho
  fin_cases ho <;>
    simp only [reassembled, pickFor, and3] <;>
    simp <;>
    exact concat_subSlices dd h

theorem xor_cancel2 (x p o : Nat) : (((x ^^^ p) ^^^ o) ^^^ p) ^^^ o = x := by
  rw [Nat.xor_assoc (x ^^^ p), Nat.xor_comm o p, ← Nat.xor_assoc (x ^^^ p),
    Nat.xor_assoc x p p, Nat.xor_self, Nat.xor_zero, Nat.xor_assoc, Nat.xor_self, Nat.xor_zero]

theorem flatMap_congr_mem (l : List Nat) (f g : Nat → List Nat)
    (h : ∀ x ∈ l, f x = g x) : l.flatMap f = l.flatMap g := by
  induction l with
  | nil => rfl
  | cons x xs ih =>
    rw [List.flatMap_cons, List.flatMap_cons, h x (by simp),
      ih (fun y hy => h y (by simp [hy]))]

theorem foldl_mask_sum (u v : Nat → Nat) (l : List Nat) :
    ∀ init, l.foldl (fun acc x => ((acc + u x) % 65536 + v x) % 65536) (init % 65536) =
      (init + (l.map (fun x => u x + v x)).sum) % 65536 := by
  induction l with
  | nil => intro init; simp
  | cons x xs ih =>
    intro init
    rw [List.foldl_cons]
    have h1 : ((init % 65536 + u x) % 65536 + v x) % 65536 = (init + u x + v x) % 65536 := by
      omega
    rw [h1, ih (init + u x + v x)]
    simp [List.map_cons, List.sum_cons]
    ring_nf

theorem writeBytes_length (src : List Nat) : ∀ (l : List Nat) (pos : Nat),
    (writeBytes l pos src).length = l.length := by
  induction src with
  | nil => intro l pos; rfl
  | cons b bs ih =>
    intro l pos
    rw [writeBytes, ih, List.length_set]

theorem writeBytes_getD (src : List Nat) : ∀ (l : List Nat) (pos k : Nat),
    (writeBytes l pos src).getD k 0 =
      if pos ≤ k ∧ k < pos + src.length ∧ k < l.length then src.getD (k - pos) 0
      else l.getD k 0 := by
  induction src with
  | nil =>
    intro l pos k
    rw [if_neg (by simp only [List.length_nil]; omega)]
    rfl
  | cons b bs ih =>
    intro l pos k
    rw [writeBytes, ih, List.length_set, getD_set]
    by_cases hin : pos + 1 ≤ k ∧ k < pos + 1 + bs.length ∧ k < l.length
    · rw [if_pos hin, if_pos (by simp only [List.length_cons]; omega)]
      rw [show k - pos = (k - (pos + 1)) + 1 from by omega]
      rw [List.getD_cons_succ]
    · rw [if_neg hin]
      by_cases hk : pos = k ∧ pos < l.length
      · rw [if_pos hk, if_pos (by simp only [List.length_cons]; omega)]
        rw [show k - pos = 0 from by omega, List.getD_cons_zero]
      · rw [if_neg hk, if_neg (by simp only [List.length_cons]; omega)]

theorem ext_of_getD (l1 l2 : List Nat) (hl : l1.length = l2.length)
    (h : ∀ k, l1.getD k 0 = l2.getD k 0) : l1 = l2 := by
  apply List.ext_getElem hl
  intro k h1 h2
  have hk := h k
  rwa [List.getD_eq_getElem _ _ h1, List.getD_eq_getElem _ _ h2] at hk

theorem decryptedData_length (values : List Nat) : (decryptedData values).length = 48 := by
  unfold decryptedData
  rw [flatMap_range_length (fun i => wordBytesLE (decWord values i)) 4 (fun j => rfl)]

/-- Writing the record's own encrypted bytes and its own stored checksum
back into the record is the identity. -/
theorem write_enc_identity (values : List Nat) (h100 : values.length = 100)
    (hb : ∀ b ∈ values, b < 256) :
    writeShort (writeBytes values 32 ((List.range 12).flatMap
      (fun i => wordBytesLE (readInt values (32 + 4 * i))))) 28 (readShort values 28) = values := by
  have hwblen : ∀ j, (wordBytesLE (readInt values (32 + 4 * j))).length = 4 := fun j => rfl
  have hElen : ((List.range 12).flatMap
      (fun i => wordBytesLE (readInt values (32 + 4 * i)))).length = 48 :=
    flatMap_range_length _ 4 hwblen 12
  have hb28 := getD_lt_256 values hb 28
  have hb29 := getD_lt_256 values hb 29
  have hstored : readShort values 28 = values.getD 28 0 + values.getD 29 0 * 256 := by
    rw [readShort_eq_sum values 28 hb28]
  apply ext_of_getD
  · unfold writeShort
    rw [List.length_set, List.length_set, writeBytes_length]
  · intro k
    unfold writeShort
    rw [getD_set, List.length_set, writeBytes_length, getD_set, writeBytes_length,
      writeBytes_getD, hElen]
    by_cases h29 : k = 29
    · subst h29
      rw [if_pos ⟨rfl, by omega⟩, shiftr8, and255, hstored]
      omega
    · rw [if_neg (by omega)]
      by_cases h28 : k = 28
      · subst h28
        rw [if_pos ⟨rfl, by omega⟩, and255, hstored]
        omega
      · rw [if_neg (by omega)]
        by_cases hinr : 32 ≤ k ∧ k < 32 + 48 ∧ k < values.length
        · rw [if_pos hinr]
          obtain ⟨q, t, hq, ht, rfl⟩ : ∃ q t, q < 12 ∧ t < 4 ∧ k = 32 + (4 * q + t) :=
            ⟨(k - 32) / 4, (k - 32) % 4, by omega, by omega, by omega⟩
          rw [show 32 + (4 * q + t) - 32 = 4 * q + t from by omega]
          rw [flatMap_range_getD _ 4 hwblen 12 q t hq ht]
          have hr := readInt_eq_sum values (32 + 4 * q) (getD_lt_256 values hb _)
            (getD_lt_256 values hb _) (getD_lt_256 values hb _) (getD_lt_256 values hb _)
          have e0 := getD_lt_256 values hb (32 + 4 * q)
          have e1 := getD_lt_256 values hb (32 + 4 * q + 1)
          have e2 := getD_lt_256 values hb (32 + 4 * q + 2)
          have e3 := getD_lt_256 values hb (32 + 4 * q + 3)
          interval_cases t
          · rw [show (wordBytesLE (readInt values (32 + 4 * q))).getD 0 0 =
                readInt values (32 + 4 * q) &&& 0xFF from rfl, and255, hr]
            rw [show 32 + (4 * q + 0) = 32 + 4 * q from by omega]
            omega
          · rw [show (wordBytesLE (readInt values (32 + 4 * q))).getD 1 0 =
                (readInt values (32 + 4 * q) >>> 8) &&& 0xFF from rfl, and255, shiftr8, hr]
            rw [show 32 + (4 * q + 1) = 32 + 4 * q + 1 from by omega]
            omega
          · rw [show (wordBytesLE (readInt values (32 + 4 * q))).getD 2 0 =
                (readInt values (32 + 4 * q) >>> 16) &&& 0xFF from rfl, and255, shiftr16, hr]
            rw [show 32 + (4 * q + 2) = 32 + 4 * q + 2 from by omega]
            omega
          · rw [show (wordBytesLE (readInt values (32 + 4 * q))).getD 3 0 =
                (readInt values (32 + 4 * q) >>> 24) &&& 0xFF from rfl, and255, shiftr24, hr]
            rw [show 32 + (4 * q + 3) = 32 + 4 * q + 3 from by omega]
            omega
        · rw [if_neg hinr]

/-- The table has 24 entries. -/
theorem enc_positions_length : init_enc_positions.length = 24 := by decide

/-- `getD` after `set`, for an arbitrary element type. -/
theorem getD_setA {α : Type} (l : List α) (p k : Nat) (v d : α) :
    (l.set p v).getD k d = if p = k ∧ p < l.length then v else l.getD k d := by
  simp only [List.getD_eq_getElem?_getD, List.getElem?_set']
  by_cases hpk : p = k
  · subst hpk
    by_cases hp : p < l.length
    · simp [hp, List.getElem?_eq_getElem hp]
    · simp [hp, List.getElem?_eq_none (by omega : l.length ≤ p)]
  · simp [hpk]

theorem getD_eraseIdx {α : Type} (l : List α) (i j : Nat) (d : α) :
    (l.eraseIdx i).getD j d = if j < i then l.getD j d else l.getD (j + 1) d := by
  simp only [List.getD_eq_getElem?_getD, List.getElem?_eraseIdx]
  split <;> rfl

theorem ext_of_getDA {α : Type} (d : α) (l1 l2 : List α) (hl : l1.length = l2.length)
    (h : ∀ k, l1.getD k d = l2.getD k d) : l1 = l2 := by
  apply List.ext_getElem hl
  intro k h1 h2
  have hk := h k
  rwa [List.getD_eq_getElem _ _ h1, List.getD_eq_getElem _ _ h2] at hk

/-- Behaviour of `reorderParty`'s shift loop: positions before `i - 1` and
from `total - 1` on are untouched; positions `i - 1 .. total - 2` receive
the value of the following slot (species ids through the `& 0xFF` of
`setId`). -/
theorem reorderLoop_spec {α : Type} [Inhabited α] (n : Nat) :
    ∀ (p : GSCParty α) (i : Nat), p.total - i ≤ n → 1 ≤ i → p.total ≤ 6 →
      p.species.length = 6 → p.mons.length = p.total →
      (reorderLoop n p i).total = p.total ∧
      (reorderLoop n p i).species.length = 6 ∧
      (reorderLoop n p i).mons.length = p.total ∧
      (∀ k, (k + 1 < i ∨ p.total ≤ k + 1) →
        (reorderLoop n p i).species.getD k 0 = p.species.getD k 0 ∧
        (reorderLoop n p i).mons.getD k default = p.mons.getD k default) ∧
      (∀ k, i ≤ k + 1 → k + 1 < p.total →
        (reorderLoop n p i).species.getD k 0 = p.species.getD (k + 1) 0 &&& 255 ∧
        (reorderLoop n p i).mons.getD k default = p.mons.getD (k + 1) default) := by
  induction n with
  | zero =>
    intro p i hn h1 h6 hs hm
    exact ⟨rfl, hs, hm, fun k _ => ⟨rfl, rfl⟩, fun k hk1 hk2 => by omega⟩
  | succ n ih =>
    intro p i hn h1 h6 hs hm
    rw [reorderLoop]
    by_cases hc : i < p.total
    · rw [if_pos hc]
      dsimp only
      set p' : GSCParty α :=
        { partySetId p (i - 1) (partyGetId p i) with
          mons := (partySetId p (i - 1) (partyGetId p i)).mons.set (i - 1)
            ((partySetId p (i - 1) (partyGetId p i)).mons.getD i default) } with hp'
      have hp't : p'.total = p.total := rfl
      have hp's : p'.species = if i - 1 < 6 then
          p.species.set (i - 1) (p.species.getD i 0 &&& 255) else p.species := by
        rw [hp']
        show (if i - 1 < 6 then p.species.set (i - 1) (partyGetId p i &&& 255)
          else p.species) = _
        have : partyGetId p i = p.species.getD i 0 := by
          unfold partyGetId
          rw [if_pos (by omega)]
        rw [this]
      have hi6 : i - 1 < 6 := by omega
      rw [if_pos hi6] at hp's
      have hp'm : p'.mons = p.mons.set (i - 1) (p.mons.getD i default) := rfl
      have hp'slen : p'.species.length = 6 := by rw [hp's, List.length_set, hs]
      have hp'mlen : p'.mons.length = p.total := by rw [hp'm, List.length_set, hm]
      obtain ⟨ht', hs', hm', hu', hsh'⟩ :=
        ih p' (i + 1) (by rw [hp't]; omega) (by omega) (by rw [hp't]; omega) hp'slen
          (by rw [hp't, hp'mlen])
      rw [hp't] at ht' hm' hsh'
      refine ⟨ht', hs', hm', ?_, ?_⟩
      · intro k hk
        have hk' : k + 1 < i + 1 ∨ p.total ≤ k + 1 := by
          rcases hk with hk | hk
          · exact Or.inl (by omega)
          · exact Or.inr (by omega)
        obtain ⟨hu1, hu2⟩ := hu' k hk'
        constructor
        · rw [hu1, hp's, getD_set]
          rw [if_neg (by rcases hk with hk | hk <;> (intro hcon; omega))]
        · rw [hu2, hp'm, getD_setA]
          rw [if_neg (by rcases hk with hk | hk <;> (intro hcon; omega))]
      · intro k hk1 hk2
        rcases Nat.lt_or_ge (k + 1) (i + 1) with hki | hki
        · -- k + 1 = i: this slot was written by this iteration
          have hkeq : k = i - 1 := by omega
          subst hkeq
          obtain ⟨hu1, hu2⟩ := hu' (i - 1) (by left; omega)
          constructor
          · rw [hu1, hp's, getD_set, if_pos ⟨rfl, by omega⟩]
            rw [show i - 1 + 1 = i from by omega]
          · rw [hu2, hp'm, getD_setA, if_pos ⟨rfl, by omega⟩]
            rw [show i - 1 + 1 = i from by omega]
        · obtain ⟨hh1, hh2⟩ := hsh' k hki hk2
          constructor
          · rw [hh1, hp's, getD_set]
            rw [if_neg (by intro hcon; omega)]
          · rw [hh2, hp'm, getD_setA]
            rw [if_neg (by intro hcon; omega)]
    · rw [if_neg hc]
      exact ⟨rfl, hs, hm, fun k _ => ⟨rfl, rfl⟩, fun k hk1 hk2 => by omega⟩

/-- Behaviour of `GSCTradingData.reorderParty` at slot `t < total`:
slots before `t` are untouched, slots `t .. total-2` receive the next
slot's contents, the last slot receives the traded slot's contents, and
slots past the party are untouched. -/
theorem reorderParty_spec {α : Type} [Inhabited α] (p : GSCParty α) (t : Nat)
    (ht : t < p.total) (h6 : p.total ≤ 6) (hs : p.species.length = 6)
    (hm : p.mons.length = p.total) :
    (reorderParty p t).total = p.total ∧
    (reorderParty p t).species.length = 6 ∧
    (reorderParty p t).mons.length = p.total ∧
    (∀ k, k < t →
      (reorderParty p t).species.getD k 0 = p.species.getD k 0 ∧
      (reorderParty p t).mons.getD k default = p.mons.getD k default) ∧
    (∀ k, t ≤ k → k + 1 < p.total →
      (reorderParty p t).species.getD k 0 = p.species.getD (k + 1) 0 &&& 255 ∧
      (reorderParty p t).mons.getD k default = p.mons.getD (k + 1) default) ∧
    ((reorderParty p t).species.getD (p.total - 1) 0 = p.species.getD t 0 &&& 255 ∧
     (reorderParty p t).mons.getD (p.total - 1) default = p.mons.getD t default) ∧
    (∀ k, p.total ≤ k →
      (reorderParty p t).species.getD k 0 = p.species.getD k 0 ∧
      (reorderParty p t).mons.getD k default = p.mons.getD k default) := by
  obtain ⟨ht', hs', hm', hu, hsh⟩ :=
    reorderLoop_spec p.total p (t + 1) (by omega) (by omega) h6 hs hm
  have hq1 : 1 ≤ p.total := by omega
  have hRt : (reorderParty p t).total = p.total := by
    unfold reorderParty
    rw [if_neg (by omega)]
    simp only [partySetId]
    exact ht'
  have hRs : (reorderParty p t).species =
      (reorderLoop p.total p (t + 1)).species.set (p.total - 1) (p.species.getD t 0 &&& 255) := by
    unfold reorderParty
    rw [if_neg (by omega)]
    simp only [partySetId, partyGetId]
    rw [if_pos (by omega : t < 6), if_pos (by omega : p.total - 1 < 6)]
  have hRm : (reorderParty p t).mons =
      (reorderLoop p.total p (t + 1)).mons.set (p.total - 1) (p.mons.getD t default) := by
    unfold reorderParty
    rw [if_neg (by omega)]
    simp only [partySetId]
  refine ⟨hRt, ?_, ?_, ?_, ?_, ?_, ?_⟩
  · rw [hRs, List.length_set, hs']
  · rw [hRm, List.length_set, hm']
  · intro k hk
    constructor
    · rw [hRs, getD_set, if_neg (by intro hcon; omega)]
      exact (hu k (Or.inl (by omega))).1
    · rw [hRm, getD_setA, if_neg (by intro hcon; omega)]
      exact (hu k (Or.inl (by omega))).2
  · intro k hk1 hk2
    constructor
    · rw [hRs, getD_set, if_neg (by intro hcon; omega)]
      exact (hsh k (by omega) hk2).1
    · rw [hRm, getD_setA, if_neg (by intro hcon; omega)]
      exact (hsh k (by omega) hk2).2
  · constructor
    · rw [hRs, getD_set, if_pos ⟨rfl, by rw [hs']; omega⟩]
    · rw [hRm, getD_setA, if_pos ⟨rfl, by rw [hm']; omega⟩]
  · intro k hk
    constructor
    · rw [hRs, getD_set, if_neg (by intro hcon; omega)]
      exact (hu k (Or.inr (by omega))).1
    · rw [hRm, getD_setA, if_neg (by intro hcon; omega)]
      exact (hu k (Or.inr (by omega))).2

/-- After reordering, overwriting the last slot with the incoming record
produces exactly "every other slot in original order, incoming record
last". -/
theorem mons_after_trade {α : Type} [Inhabited α] (p : GSCParty α) (t : Nat) (incoming : α)
    (ht : t < p.total) (h6 : p.total ≤ 6) (hs : p.species.length = 6)
    (hm : p.mons.length = p.total) :
    (reorderParty p t).mons.set (p.total - 1) incoming =
      p.mons.eraseIdx t ++ [incoming] := by
  obtain ⟨ht', hs', hm', hu, hsh, hlast, hhigh⟩ := reorderParty_spec p t ht h6 hs hm
  have hel : (p.mons.eraseIdx t).length = p.total - 1 := by
    rw [List.length_eraseIdx_of_lt (by omega), hm]
  apply ext_of_getDA default
  · rw [List.length_set, hm', List.length_append, hel, List.length_singleton]
    omega
  · intro k
    rw [getD_setA]
    by_cases hk : p.total - 1 = k ∧ p.total - 1 < (reorderParty p t).mons.length
    · rw [if_pos hk]
      obtain ⟨rfl, _⟩ := hk
      rw [List.getD_append_right _ _ _ _ (by omega), hel]
      simp
    · rw [if_neg hk]
      rw [hm'] at hk
      rcases Nat.lt_or_ge k (p.total - 1) with hklt | hkge
      · rw [List.getD_append _ _ _ _ (by omega)]
        rw [getD_eraseIdx]
        rcases Nat.lt_or_ge k t with hkt | hkt
        · rw [if_pos hkt]
          exact (hu k hkt).2
        · rw [if_neg (by omega)]
          exact (hsh k hkt (by omega)).2
      · have hkbig : p.total ≤ k := by omega
        rw [List.getD_append_right _ _ _ _ (by omega : (p.mons.eraseIdx t).length ≤ k)]
        rw [hel]
        rw [List.getD_eq_default _ _ (by omega : (reorderParty p t).mons.length ≤ k)]
        rw [List.getD_eq_default _ _
          (by simp only [List.length_cons, List.length_nil]; omega)]

theorem countFE_zero (data : List Nat) (a b : Nat) (h : b ≤ a) : countFE data a b = 0 := by
  unfold countFE
  rw [show b - a = 0 from by omega]
  rfl

theorem countFE_step (data : List Nat) (a b : Nat) (h : a < b) :
    countFE data a b =
      (if data.getD a 0 = 0xFE then 1 else 0) + countFE data (a + 1) b := by
  unfold countFE
  rw [show b - a = (b - (a + 1)) + 1 from by omega, List.range'_succ, List.filter_cons]
  split
  · rename_i hc
    simp only [List.length_cons]
    split
    · omega
    · rename_i hne
      simp only [beq_iff_eq] at hc
      exact absurd hc hne
  · rename_i hc
    simp only [beq_iff_eq] at hc
    rw [if_neg hc]
    omega

theorem countFE_congr (d1 d2 : List Nat) (a b : Nat)
    (h : ∀ p, a ≤ p → p < b → d1.getD p 0 = d2.getD p 0) :
    countFE d1 a b = countFE d2 a b := by
  unfold countFE
  congr 1
  apply List.filter_congr
  intro p hp
  rw [List.mem_range'] at hp
  rw [h p (by omega) (by omega)]

/-- A decode loop whose page base is at or past the end of the data
buffer never writes: every patch entry maps out of range. -/
theorem applyPatchesGo_stale (ps : List Nat) (start : Nat) :
    ∀ fuelD (D : List Nat) (base i rem : Nat), D.length ≤ base →
      applyPatchesGo ps start fuelD D base i rem = D := by
  intro fuelD
  induction fuelD with
  | zero => intro D base i rem hb; rfl
  | succ n ih =>
    intro D base i rem hb
    rw [applyPatchesGo]
    by_cases hc : 0 < rem ∧ start + i < ps.length
    · rw [if_pos hc]
      dsimp only
      split
      · exact ih D (base + 0xFC) (i + 1) (rem - 1) (by omega)
      · rw [if_neg (by intro hcon; omega)]
        exact ih D base (i + 1) rem hb
    · rw [if_neg hc]

/-- The decode loop with no open patch set left returns immediately. -/
theorem applyPatchesGo_remZero (ps : List Nat) (start : Nat) (fuelD : Nat)
    (D : List Nat) (base i : Nat) :
    applyPatchesGo ps start fuelD D base i 0 = D := by
  cases fuelD with
  | zero => rfl
  | succ n =>
    rw [applyPatchesGo]
    rw [if_neg (by omega)]

/-- The encode loop at a terminal state returns its arguments, for any
fuel. -/
theorem createPatchesGo_term (start fuel : Nat) (data ps : List Nat)
    (base i j rem : Nat)
    (hterm : ¬(0 < rem ∧ start + i < ps.length ∧ base + j < data.length)) :
    createPatchesGo start fuel data ps base i j rem = (data, ps, i, j) := by
  cases fuel with
  | zero => rfl
  | succ n =>
    rw [createPatchesGo]
    rw [if_neg hterm]

/-- Round-trip conclusions at a terminal encode state: sizes are kept,
the patch-set prefix before `start + i` is untouched, the data is
unchanged (the unscanned region holds no `0xFE` by coverage), and the
decode loop started from the matching state restores any same-length
buffer. -/
theorem encodeFrom_term (start fuel : Nat) (data ps : List Nat) (base i j rem : Nat)
    (hterm : ¬(0 < rem ∧ start + i < ps.length ∧ base + j < data.length))
    (hj : j < 0xFC)
    (hjr : 0 < rem ∨ j = 0)
    (hcap : start + i + countFE data (base + j) data.length + rem ≤ ps.length)
    (hcov : ∀ p, base + 0xFC * rem ≤ p → p < data.length → data.getD p 0 ≠ 0xFE) :
    (encodeFrom start fuel data ps base i j rem).1.length = data.length ∧
    (encodeFrom start fuel data ps base i j rem).2.length = ps.length ∧
    (∀ q, q < start + i →
      (encodeFrom start fuel data ps base i j rem).2.getD q 0 = ps.getD q 0) ∧
    (∀ p, (encodeFrom start fuel data ps base i j rem).1.getD p 0 =
      if base + j ≤ p ∧ p < data.length ∧ data.getD p 0 = 0xFE then 0xFF
      else data.getD p 0) ∧
    (∀ (D : List Nat) (fuelD : Nat), D.length = data.length →
      ps.length - (start + i) ≤ fuelD →
      ∀ p, (applyPatchesGo (encodeFrom start fuel data ps base i j rem).2 start fuelD D
          base i rem).getD p 0 =
        if base + j ≤ p ∧ p < data.length ∧ data.getD p 0 = 0xFE then 0xFE
        else D.getD p 0) := by
  have hcg := createPatchesGo_term start fuel data ps base i j rem hterm
  unfold encodeFrom
  rw [hcg]
  by_cases hrem : rem = 0
  · subst hrem
    have hj0 : j = 0 := by omega
    subst hj0
    have hempt : ∀ p, ¬(base + 0 ≤ p ∧ p < data.length ∧ data.getD p 0 = 0xFE) := by
      intro p ⟨h1, h2, h3⟩
      exact hcov p (by omega) h2 h3
    unfold patchTrailing
    dsimp only
    rw [if_neg (by simp)]
    refine ⟨rfl, rfl, fun q _ => rfl, fun p => ?_, fun D fuelD hD hfD p => ?_⟩
    · rw [if_neg (hempt p)]
    · rw [applyPatchesGo_remZero, if_neg (hempt p)]
  · have hrem' : 0 < rem := by omega
    have hlt : start + i < ps.length := by omega
    have hlen : data.length ≤ base + j := by
      by_contra hcon
      exact hterm ⟨hrem', hlt, by omega⟩
    have hempt : ∀ p, ¬(base + j ≤ p ∧ p < data.length ∧ data.getD p 0 = 0xFE) := by
      intro p ⟨h1, h2, _⟩
      omega
    by_cases hj0 : j = 0
    · subst hj0
      unfold patchTrailing
      dsimp only
      rw [if_neg (by simp)]
      refine ⟨rfl, rfl, fun q _ => rfl, fun p => ?_, fun D fuelD hD hfD p => ?_⟩
      · rw [if_neg (hempt p)]
      · rw [applyPatchesGo_stale ps start fuelD D base i rem (by omega),
          if_neg (hempt p)]
    · unfold patchTrailing
      dsimp only
      rw [if_pos hj0]
      rw [if_neg (by omega)]
      refine ⟨rfl, by rw [List.length_set], fun q hq => ?_, fun p => ?_,
        fun D fuelD hD hfD p => ?_⟩
      · rw [getD_set, if_neg (by omega)]
      · rw [if_neg (hempt p)]
      · cases fuelD with
        | zero => omega
        | succ m =>
          rw [applyPatchesGo]
          rw [if_pos ⟨hrem', by rw [List.length_set]; exact hlt⟩]
          dsimp only
          rw [getD_set]
          rw [if_pos (show start + i = start + i ∧ start + i < ps.length from ⟨rfl, hlt⟩)]
          rw [if_pos rfl]
          rw [applyPatchesGo_stale _ start m D (base + 0xFC) (i + 1) (rem - 1) (by omega)]
          rw [if_neg (hempt p)]

/-- Full specification of the encode loop with trailing terminator, by
induction on the fuel: it preserves both lengths, never touches the patch
set below `start + i`, rewrites exactly the `0xFE` bytes of the scanned
region to `0xFF`, and the decode loop started from the matching state
turns exactly those bytes of any same-length buffer back into `0xFE`. -/
theorem encodeFrom_spec (start : Nat) :
    ∀ fuel (data ps : List Nat) (base i j rem : Nat),
      data.length ≤ base + j + fuel →
      j < 0xFC →
      (0 < rem ∨ j = 0) →
      start + i + countFE data (base + j) data.length + rem ≤ ps.length →
      (∀ p, base + 0xFC * rem ≤ p → p < data.length → data.getD p 0 ≠ 0xFE) →
      (encodeFrom start fuel data ps base i j rem).1.length = data.length ∧
      (encodeFrom start fuel data ps base i j rem).2.length = ps.length ∧
      (∀ q, q < start + i →
        (encodeFrom start fuel data ps base i j rem).2.getD q 0 = ps.getD q 0) ∧
      (∀ p, (encodeFrom start fuel data ps base i j rem).1.getD p 0 =
        if base + j ≤ p ∧ p < data.length ∧ data.getD p 0 = 0xFE then 0xFF
        else data.getD p 0) ∧
      (∀ (D : List Nat) (fuelD : Nat), D.length = data.length →
        ps.length - (start + i) ≤ fuelD →
        ∀ p, (applyPatchesGo (encodeFrom start fuel data ps base i j rem).2 start fuelD D
            base i rem).getD p 0 =
          if base + j ≤ p ∧ p < data.length ∧ data.getD p 0 = 0xFE then 0xFE
          else D.getD p 0) := by
  intro fuel
  induction fuel with
  | zero =>
    intro data ps base i j rem hfuel hj hjr hcap hcov
    exact encodeFrom_term start 0 data ps base i j rem (fun h => by omega) hj hjr hcap hcov
  | succ n ih =>
    intro data ps base i j rem hfuel hj hjr hcap hcov
    by_cases hc : 0 < rem ∧ start + i < ps.length ∧ base + j < data.length
    · obtain ⟨hrem, hilt, hjlt⟩ := hc
      by_cases hfe : data.getD (base + j) 0 = 0xFE
      · have hcnt : countFE data (base + j) data.length =
            1 + countFE data (base + j + 1) data.length := by
          rw [countFE_step data (base + j) data.length hjlt, if_pos hfe]
        by_cases hroll : j + 1 = 0xFC
        · -- 0xFE found and the page is full: entry plus separator
          have hstep : createPatchesGo start (n + 1) data ps base i j rem =
              createPatchesGo start n (data.set (base + j) 0xFF)
                ((ps.set (start + i) (j + 1)).set (start + (i + 1)) 0xFF)
                (base + 0xFC) (i + 1 + 1) 0 (rem - 1) := by
            rw [createPatchesGo]
            rw [if_pos ⟨hrem, hilt, hjlt⟩]
            dsimp only
            rw [if_pos hroll]
            rw [if_pos hfe, if_pos hfe, if_pos hfe]
          have hcnt2 : countFE (data.set (base + j) 0xFF) (base + 0xFC + 0)
              data.length = countFE data (base + j + 1) data.length := by
            rw [show base + 0xFC + 0 = base + j + 1 from by omega]
            apply countFE_congr
            intro p hp1 hp2
            rw [getD_set, if_neg (by omega)]
          obtain ⟨Hlen1, Hlen2, Hpre, Hdata, Hdec⟩ :=
            ih (data.set (base + j) 0xFF)
              ((ps.set (start + i) (j + 1)).set (start + (i + 1)) 0xFF)
              (base + 0xFC) (i + 1 + 1) 0 (rem - 1)
              (by rw [List.length_set]; omega)
              (by omega)
              (Or.inr rfl)
              (by rw [List.length_set, List.length_set, List.length_set, hcnt2]; omega)
              (by
                intro p hp1 hp2
                rw [List.length_set] at hp2
                rw [getD_set, if_neg (by omega)]
                exact hcov p (by omega) hp2)
          have hE : encodeFrom start (n + 1) data ps base i j rem =
              encodeFrom start n (data.set (base + j) 0xFF)
                ((ps.set (start + i) (j + 1)).set (start + (i + 1)) 0xFF)
                (base + 0xFC) (i + 1 + 1) 0 (rem - 1) := by
            unfold encodeFrom
            rw [hstep]
          rw [hE]
          refine ⟨?_, ?_, ?_, ?_, ?_⟩
          · rw [Hlen1, List.length_set]
          · rw [Hlen2, List.length_set, List.length_set]
          · intro q hq
            rw [Hpre q (by omega), getD_set, if_neg (by omega), getD_set,
              if_neg (by omega)]
          · intro p
            rw [Hdata p, List.length_set, getD_set data (base + j) p 0xFF]
            by_cases hp : p = base + j
            · subst hp
              split_ifs <;> omega
            · split_ifs <;> omega
          · intro D fuelD hD hfD p
            cases fuelD with
            | zero => omega
            | succ m =>
              cases m with
              | zero => omega
              | succ m' =>
                rw [applyPatchesGo]
                have hcnd1 : 0 < rem ∧ start + i <
                    (encodeFrom start n (data.set (base + j) 0xFF)
                      ((ps.set (start + i) (j + 1)).set (start + (i + 1)) 0xFF)
                      (base + 0xFC) (i + 1 + 1) 0 (rem - 1)).2.length := by
                  refine ⟨hrem, ?_⟩
                  rw [Hlen2, List.length_set, List.length_set]
                  exact hilt
                rw [if_pos hcnd1]
                dsimp only
                have hread1 : (encodeFrom start n (data.set (base + j) 0xFF)
                    ((ps.set (start + i) (j + 1)).set (start + (i + 1)) 0xFF)
                    (base + 0xFC) (i + 1 + 1) 0 (rem - 1)).2.getD (start + i) 0 = j + 1 := by
                  rw [Hpre (start + i) (by omega), getD_set, if_neg (by omega), getD_set]
                  rw [if_pos (show start + i = start + i ∧ start + i < ps.length from
                    ⟨rfl, hilt⟩)]
                rw [hread1]
                rw [if_neg (show ¬(j + 1 = 0xFF) from by omega)]
                rw [if_pos (show 0 < j + 1 ∧ j + 1 + base - 1 < D.length from
                  ⟨by omega, by omega⟩)]
                rw [applyPatchesGo]
                have hcnd2 : 0 < rem ∧ start + (i + 1) <
                    (encodeFrom start n (data.set (base + j) 0xFF)
                      ((ps.set (start + i) (j + 1)).set (start + (i + 1)) 0xFF)
                      (base + 0xFC) (i + 1 + 1) 0 (rem - 1)).2.length := by
                  refine ⟨hrem, ?_⟩
                  rw [Hlen2, List.length_set, List.length_set]
                  omega
                rw [if_pos hcnd2]
                dsimp only
                have hread2 : (encodeFrom start n (data.set (base + j) 0xFF)
                    ((ps.set (start + i) (j + 1)).set (start + (i + 1)) 0xFF)
                    (base + 0xFC) (i + 1 + 1) 0 (rem - 1)).2.getD (start + (i + 1)) 0
                    = 0xFF := by
                  rw [Hpre (start + (i + 1)) (by omega), getD_set]
                  rw [if_pos (show start + (i + 1) = start + (i + 1) ∧
                    start + (i + 1) < (ps.set (start + i) (j + 1)).length from
                    ⟨rfl, by rw [List.length_set]; omega⟩)]
                rw [hread2, if_pos rfl]
                rw [Hdec (D.set (j + 1 + base - 1) 0xFE) m'
                  (by rw [List.length_set, List.length_set]; exact hD)
                  (by rw [List.length_set, List.length_set]; omega) p]
                rw [List.length_set, getD_set data (base + j) p 0xFF,
                  getD_set D (j + 1 + base - 1) p 0xFE]
                by_cases hp : p = base + j
                · subst hp
                  split_ifs <;> omega
                · split_ifs <;> omega
        · -- 0xFE found, page not yet full: entry only
          have hstep : createPatchesGo start (n + 1) data ps base i j rem =
              createPatchesGo start n (data.set (base + j) 0xFF)
                (ps.set (start + i) (j + 1)) base (i + 1) (j + 1) rem := by
            rw [createPatchesGo]
            rw [if_pos ⟨hrem, hilt, hjlt⟩]
            dsimp only
            rw [if_neg hroll]
            rw [if_pos hfe, if_pos hfe, if_pos hfe]
          have hcnt2 : countFE (data.set (base + j) 0xFF) (base + (j + 1))
              data.length = countFE data (base + j + 1) data.length := by
            rw [show base + (j + 1) = base + j + 1 from by omega]
            apply countFE_congr
            intro p hp1 hp2
            rw [getD_set, if_neg (by omega)]
          obtain ⟨Hlen1, Hlen2, Hpre, Hdata, Hdec⟩ :=
            ih (data.set (base + j) 0xFF) (ps.set (start + i) (j + 1))
              base (i + 1) (j + 1) rem
              (by rw [List.length_set]; omega)
              (by omega)
              (Or.inl hrem)
              (by rw [List.length_set, List.length_set, hcnt2]; omega)
              (by
                intro p hp1 hp2
                rw [List.length_set] at hp2
                rw [getD_set, if_neg (by omega)]
                exact hcov p (by omega) hp2)
          have hE : encodeFrom start (n + 1) data ps base i j rem =
              encodeFrom start n (data.set (base + j) 0xFF)
                (ps.set (start + i) (j + 1)) base (i + 1) (j + 1) rem := by
            unfold encodeFrom
            rw [hstep]
          rw [hE]
          refine ⟨?_, ?_, ?_, ?_, ?_⟩
          · rw [Hlen1, List.length_set]
          · rw [Hlen2, List.length_set]
          · intro q hq
            rw [Hpre q (by omega), getD_set, if_neg (by omega)]
          · intro p
            rw [Hdata p, List.length_set, getD_set data (base + j) p 0xFF]
            by_cases hp : p = base + j
            · subst hp
              split_ifs <;> omega
            · split_ifs <;> omega
          · intro D fuelD hD hfD p
            cases fuelD with
            | zero => omega
            | succ m =>
              rw [applyPatchesGo]
              have hcnd1 : 0 < rem ∧ start + i <
                  (encodeFrom start n (data.set (base + j) 0xFF)
                    (ps.set (start + i) (j + 1)) base (i + 1) (j + 1) rem).2.length := by
                refine ⟨hrem, ?_⟩
                rw [Hlen2, List.length_set]
                exact hilt
              rw [if_pos hcnd1]
              dsimp only
              have hread1 : (encodeFrom start n (data.set (base + j) 0xFF)
                  (ps.set (start + i) (j + 1)) base (i + 1) (j + 1) rem).2.getD
                  (start + i) 0 = j + 1 := by
                rw [Hpre (start + i) (by omega), getD_set]
                rw [if_pos (show start + i = start + i ∧ start + i < ps.length from
                  ⟨rfl, hilt⟩)]
              rw [hread1]
              rw [if_neg (show ¬(j + 1 = 0xFF) from by omega)]
              rw [if_pos (show 0 < j + 1 ∧ j + 1 + base - 1 < D.length from
                ⟨by omega, by omega⟩)]
              rw [Hdec (D.set (j + 1 + base - 1) 0xFE) m
                (by rw [List.length_set, List.length_set]; exact hD)
                (by rw [List.length_set]; omega) p]
              rw [List.length_set, getD_set data (base + j) p 0xFF,
                getD_set D (j + 1 + base - 1) p 0xFE]
              by_cases hp : p = base + j
              · subst hp
                split_ifs <;> omega
              · split_ifs <;> omega
      · by_cases hroll : j + 1 = 0xFC
        · -- no 0xFE here and the page is full: separator only
          have hstep : createPatchesGo start (n + 1) data ps base i j rem =
              createPatchesGo start n data (ps.set (start + i) 0xFF)
                (base + 0xFC) (i + 1) 0 (rem - 1) := by
            rw [createPatchesGo]
            rw [if_pos ⟨hrem, hilt, hjlt⟩]
            dsimp only
            rw [if_pos hroll]
            rw [if_neg hfe, if_neg hfe, if_neg hfe]
          have hcnt : countFE data (base + j) data.length =
              countFE data (base + 0xFC + 0) data.length := by
            rw [countFE_step data (base + j) data.length hjlt, if_neg hfe,
              Nat.zero_add, show base + j + 1 = base + 0xFC + 0 from by omega]
          obtain ⟨Hlen1, Hlen2, Hpre, Hdata, Hdec⟩ :=
            ih data (ps.set (start + i) 0xFF) (base + 0xFC) (i + 1) 0 (rem - 1)
              (by omega)
              (by omega)
              (Or.inr rfl)
              (by rw [List.length_set]; omega)
              (by
                intro p hp1 hp2
                exact hcov p (by omega) hp2)
          have hE : encodeFrom start (n + 1) data ps base i j rem =
              encodeFrom start n data (ps.set (start + i) 0xFF)
                (base + 0xFC) (i + 1) 0 (rem - 1) := by
            unfold encodeFrom
            rw [hstep]
          rw [hE]
          refine ⟨Hlen1, ?_, ?_, ?_, ?_⟩
          · rw [Hlen2, List.length_set]
          · intro q hq
            rw [Hpre q (by omega), getD_set, if_neg (by omega)]
          · intro p
            rw [Hdata p]
            by_cases hp : p = base + j
            · subst hp
              split_ifs <;> omega
            · split_ifs <;> omega
          · intro D fuelD hD hfD p
            cases fuelD with
            | zero => omega
            | succ m =>
              rw [applyPatchesGo]
              have hcnd1 : 0 < rem ∧ start + i <
                  (encodeFrom start n data (ps.set (start + i) 0xFF)
                    (base + 0xFC) (i + 1) 0 (rem - 1)).2.length := by
                refine ⟨hrem, ?_⟩
                rw [Hlen2, List.length_set]
                exact hilt
              rw [if_pos hcnd1]
              dsimp only
              have hread1 : (encodeFrom start n data (ps.set (start + i) 0xFF)
                  (base + 0xFC) (i + 1) 0 (rem - 1)).2.getD (start + i) 0 = 0xFF := by
                rw [Hpre (start + i) (by omega), getD_set]
                rw [if_pos (show start + i = start + i ∧ start + i < ps.length from
                  ⟨rfl, hilt⟩)]
              rw [hread1, if_pos rfl]
              rw [Hdec D m hD (by rw [List.length_set]; omega) p]
              by_cases hp : p = base + j
              · subst hp
                split_ifs <;> omega
              · split_ifs <;> omega
        · -- no 0xFE here, page not full: plain advance
          have hstep : createPatchesGo start (n + 1) data ps base i j rem =
              createPatchesGo start n data ps base i (j + 1) rem := by
            rw [createPatchesGo]
            rw [if_pos ⟨hrem, hilt, hjlt⟩]
            dsimp only
            rw [if_neg hroll]
            rw [if_neg hfe, if_neg hfe, if_neg hfe]
          have hcnt : countFE data (base + j) data.length =
              countFE data (base + (j + 1)) data.length := by
            rw [countFE_step data (base + j) data.length hjlt, if_neg hfe,
              Nat.zero_add, Nat.add_assoc]
          obtain ⟨Hlen1, Hlen2, Hpre, Hdata, Hdec⟩ :=
            ih data ps base i (j + 1) rem
              (by omega)
              (by omega)
              (Or.inl hrem)
              (by omega)
              hcov
          have hE : encodeFrom start (n + 1) data ps base i j rem =
              encodeFrom start n data ps base i (j + 1) rem := by
            unfold encodeFrom
            rw [hstep]
          rw [hE]
          refine ⟨Hlen1, Hlen2, fun q hq => Hpre q hq, ?_, ?_⟩
          · intro p
            rw [Hdata p]
            by_cases hp : p = base + j
            · subst hp
              split_ifs <;> omega
            · split_ifs <;> omega
          · intro D fuelD hD hfD p
            rw [Hdec D fuelD hD hfD p]
            by_cases hp : p = base + j
            · subst hp
              split_ifs <;> omega
            · split_ifs <;> omega
    · exact encodeFrom_term start (n + 1) data ps base i j rem hc hj hjr hcap hcov


/-- C1 (patch round-trip, amended): the claim as stated omits a capacity
requirement on the patch set.  Amended: if additionally the patch set has
room for one entry per `0xFE` byte of the data region plus one terminator
per patch page (`start + countFE + num ≤ patchSet.length`), then decoding
the encoded buffer with the produced patch set restores the original data
byte-for-byte, and the encoded data region holds no `0xFE` byte. -/
theorem patch_roundtrip_amended (data ps : List Nat) (isMail isJapanese : Bool)
    (num idx start base : Nat)
    (hni : getPatchSetNumIndex isMail isJapanese = (num, idx))
    (hstart : start = patch_set_start_info_pos.getD idx 0)
    (hbase : base = patch_set_base_pos.getD idx 0)
    (hcov : ∀ p, base + 0xFC * num ≤ p → p < data.length → data.getD p 0 ≠ 0xFE)
    (hcap : start + countFE data base data.length + num ≤ ps.length) :
    applyPatches (createPatchesData data ps isMail isJapanese).1
      (createPatchesData data ps isMail isJapanese).2 isMail isJapanese = data ∧
    (∀ p, base ≤ p → p < data.length →
      (createPatchesData data ps isMail isJapanese).1.getD p 0 ≠ 0xFE) := by
  obtain ⟨Hlen1, Hlen2, Hpre, Hdata, Hdec⟩ :=
    encodeFrom_spec start data.length data ps base 0 0 num
      (by omega) (by omega) (Or.inr rfl)
      (by simp only [Nat.add_zero]; exact hcap) hcov
  have hcd : createPatchesData data ps isMail isJapanese =
      encodeFrom start data.length data ps base 0 0 num := by
    unfold createPatchesData
    rw [hni]
    dsimp only
    rw [← hstart, ← hbase]
  constructor
  · have hap : applyPatches (createPatchesData data ps isMail isJapanese).1
        (createPatchesData data ps isMail isJapanese).2 isMail isJapanese =
        applyPatchesGo (encodeFrom start data.length data ps base 0 0 num).2 start
          (encodeFrom start data.length data ps base 0 0 num).2.length
          (encodeFrom start data.length data ps base 0 0 num).1 base 0 num := by
      rw [hcd]
      unfold applyPatches
      rw [hni]
      dsimp only
      rw [← hstart, ← hbase]
    rw [hap]
    apply ext_of_getD
    · rw [(applyPatchesGo_safe (encodeFrom start data.length data ps base 0 0 num).2
        start (encodeFrom start data.length data ps base 0 0 num).2.length
        (encodeFrom start data.length data ps base 0 0 num).1 base 0 num).1, Hlen1]
    · intro k
      rw [Hdec (encodeFrom start data.length data ps base 0 0 num).1
        (encodeFrom start data.length data ps base 0 0 num).2.length Hlen1
        (by rw [Hlen2]; omega) k]
      rw [Hdata k]
      split_ifs <;> omega
  · intro p hp1 hp2
    rw [hcd, Hdata p]
    split_ifs with h
    · omega
    · omega

/-- C1 counterexample: a buffer of length 21 with `0xFE` at positions 19
and 20 (both inside the non-mail patch pages, so the claim's coverage
condition holds) and a patch set of length 8.  Only one patch entry fits;
the trailing terminator is clamped onto the last patch-set byte and
overwrites that entry, so decoding does not restore the buffer, and a
`0xFE` byte survives in the encoded data region. -/
theorem patch_roundtrip_counterexample :
    (∀ p, p < (List.replicate 19 0 ++ [0xFE, 0xFE]).length →
      (List.replicate 19 0 ++ [0xFE, 0xFE]).getD p 0 = 0xFE →
      0x13 ≤ p ∧ p < 0x13 + 0xFC * 2) ∧
    applyPatches
      (createPatchesData (List.replicate 19 0 ++ [0xFE, 0xFE])
        (List.replicate 8 0) false false).1
      (createPatchesData (List.replicate 19 0 ++ [0xFE, 0xFE])
        (List.replicate 8 0) false false).2
      false false ≠ List.replicate 19 0 ++ [0xFE, 0xFE] ∧
    ¬ (∀ p, p < (List.replicate 19 0 ++ [0xFE, 0xFE]).length → 0x13 ≤ p →
      (createPatchesData (List.replicate 19 0 ++ [0xFE, 0xFE])
        (List.replicate 8 0) false false).1.getD p 0 ≠ 0xFE) := by
  decide

/-- Witness for C1: the same buffer with a large enough patch set
(length 12): the round trip restores it and the encoded region is
`0xFE`-free. -/
theorem patch_roundtrip_amended_witness :
    applyPatches
      (createPatchesData (List.replicate 19 0 ++ [0xFE, 0xFE])
        (List.replicate 12 0) false false).1
      (createPatchesData (List.replicate 19 0 ++ [0xFE, 0xFE])
        (List.replicate 12 0) false false).2
      false false = List.replicate 19 0 ++ [0xFE, 0xFE] ∧
    (∀ p, 0x13 ≤ p → p < (List.replicate 19 0 ++ [0xFE, 0xFE]).length →
      (createPatchesData (List.replicate 19 0 ++ [0xFE, 0xFE])
        (List.replicate 12 0) false false).1.getD p 0 ≠ 0xFE) :=
  patch_roundtrip_amended (List.replicate 19 0 ++ [0xFE, 0xFE]) (List.replicate 12 0)
    false false 2 0 7 0x13 (by decide) (by decide) (by decide)
    (by
      intro p h1 h2
      have hl : (List.replicate 19 0 ++ [0xFE, 0xFE]).length = 21 := by decide
      omega)
    (by decide)

/-- Once the retained-species count has reached the team size, every
further slot is forced to `0xFF`. -/
theorem cleanSpeciesRun_saturated (bad : Nat → Bool) :
    ∀ (vs : List Nat) (st : SpState), st.teamSize ≤ st.speciesListSize →
      (cleanSpeciesRun bad st vs).1 = List.replicate vs.length 0xFF := by
  intro vs
  induction vs with
  | nil => intro st hst; rfl
  | cons v vs ih =>
    intro st hst
    rw [cleanSpeciesRun]
    dsimp only
    rw [cleanSpeciesSp, if_pos (Or.inr hst)]
    dsimp only
    rw [List.length_cons, List.replicate_succ]
    have hst' : (addToSpeciesList
        { st with currSpeciesPos := st.currSpeciesPos + 1 } 0xFF).teamSize ≤
        (addToSpeciesList { st with currSpeciesPos := st.currSpeciesPos + 1 } 0xFF).speciesListSize := by
      unfold addToSpeciesList
      dsimp only
      rw [if_neg (by simp)]
      exact hst
    rw [ih _ hst']

/-- Feeding `n` retained species to the cleaner raises the retained count
by `n` while the team size stays fixed, and the output has length `n`. -/
theorem cleanSpeciesRun_counted (bad : Nat → Bool) :
    ∀ (vs : List Nat) (st : SpState),
      (∀ v ∈ vs, v ≠ 0xFF ∧ (v = 0 → bad 0 = true)) →
      st.speciesListSize + vs.length ≤ st.teamSize →
      (cleanSpeciesRun bad st vs).2.speciesListSize = st.speciesListSize + vs.length ∧
      (cleanSpeciesRun bad st vs).2.teamSize = st.teamSize ∧
      (cleanSpeciesRun bad st vs).1.length = vs.length := by
  intro vs
  induction vs with
  | nil => intro st _ _; exact ⟨rfl, rfl, rfl⟩
  | cons v vs ih =>
    intro st hgood hroom
    have hv := hgood v (by simp)
    rw [cleanSpeciesRun]
    dsimp only
    rw [cleanSpeciesSp, if_neg (by
      push_neg
      exact ⟨hv.1, by simp only [List.length_cons] at hroom; omega⟩)]
    dsimp only
    set found := if v = 0xFD then v else cleanValue v (!bad v) 0x13 with hfound
    have hcnt : found ≠ 0xFF ∧ found ≠ 0x00 := by
      rw [hfound]
      unfold cleanValue
      constructor
      · split
        · exact hv.1
        · split
          · exact hv.1
          · decide
      · split
        · rename_i h253
          omega
        · split
          · rename_i hok
            intro hv0
            rw [hv0] at hok
            simp [hv.2 hv0] at hok
          · decide
    set st' := addToSpeciesList { st with currSpeciesPos := st.currSpeciesPos + 1 } found
      with hst'
    have hsz : st'.speciesListSize = st.speciesListSize + 1 := by
      rw [hst']
      unfold addToSpeciesList
      dsimp only
      rw [if_pos hcnt]
    have hts : st'.teamSize = st.teamSize := rfl
    obtain ⟨h1, h2, h3⟩ := ih st' (fun w hw => hgood w (by simp [hw]))
      (by rw [hsz, hts]; simp only [List.length_cons] at hroom; omega)
    refine ⟨?_, ?_, ?_⟩
    · rw [h1, hsz, List.length_cons]
      omega
    · rw [h2, hts]
    · rw [List.length_cons, List.length_cons, h3]

/-- The cleaner processes an appended list in two stages. -/
theorem cleanSpeciesRun_append (bad : Nat → Bool) :
    ∀ (l1 l2 : List Nat) (st : SpState),
      cleanSpeciesRun bad st (l1 ++ l2) =
        ((cleanSpeciesRun bad st l1).1 ++
          (cleanSpeciesRun bad (cleanSpeciesRun bad st l1).2 l2).1,
         (cleanSpeciesRun bad (cleanSpeciesRun bad st l1).2 l2).2) := by
  intro l1
  induction l1 with
  | nil => intro l2 st; rfl
  | cons v vs ih =>
    intro l2 st
    rw [List.cons_append, cleanSpeciesRun, cleanSpeciesRun]
    dsimp only
    rw [ih]
    simp

/-- C8 counterexample: with team size 1 and species slots
`[0xFF, 0x19, ...]`, the cleaned slot at index `1 ≥ count` holds `0x19`,
not `0xFF` — a free slot before a real species defeats the index-based
reading of the claim. -/
theorem party_clamp_counterexample :
    (cleanPartyHeader (fun _ => false) 1 [0xFF, 0x19, 0xFF, 0xFF, 0xFF, 0xFF]).1 = 1 ∧
    (cleanPartyHeader (fun _ => false) 1
      [0xFF, 0x19, 0xFF, 0xFF, 0xFF, 0xFF]).2.getD 1 0 = 0x19 := by
  decide

/-- C8 (amended, party count clamp): the constructed party-info count and
the cleaned count byte always lie in `[1, 6]`, in-range counts are kept
as-is, and — provided the first `count` species slots all carry retained
species (not `0xFF`, and `0x00` only when the bad-species bitmap maps it
to the Rattata default) — every cleaned species slot at index ≥ count
holds `0xFF`. -/
theorem party_clamp_amended (bad : Nat → Bool) (countByte : Nat) (slots : List Nat)
    (hslots : slots.length = 6)
    (hgood : ∀ v ∈ slots.take (cleanTeamSize countByte),
      v ≠ 0xFF ∧ (v = 0 → bad 0 = true)) :
    (1 ≤ clampTotal countByte ∧ clampTotal countByte ≤ 6) ∧
    (1 ≤ cleanTeamSize countByte ∧ cleanTeamSize countByte ≤ 6) ∧
    (1 ≤ countByte → countByte ≤ 6 →
      clampTotal countByte = countByte ∧ cleanTeamSize countByte = countByte) ∧
    (∀ k, cleanTeamSize countByte ≤ k →
      (cleanPartyHeader bad countByte slots).2.getD k 0xFF = 0xFF) := by
  have hts : 1 ≤ cleanTeamSize countByte ∧ cleanTeamSize countByte ≤ 6 := by
    unfold cleanTeamSize cleanValue isTeamSizeValid
    split
    · rename_i hok
      simp only [Bool.and_eq_true, decide_eq_true_eq] at hok
      omega
    · omega
  refine ⟨?_, hts, ?_, ?_⟩
  · unfold clampTotal
    split <;> omega
  · intro h1 h6
    constructor
    · unfold clampTotal
      rw [if_neg (by omega)]
    · unfold cleanTeamSize cleanValue isTeamSizeValid
      rw [if_pos (by simp only [Bool.and_eq_true, decide_eq_true_eq]; omega)]
  · intro k hk
    set ts := cleanTeamSize countByte with htsdef
    have htake : (slots.take ts).length = ts := by
      rw [List.length_take, hslots]
      omega
    obtain ⟨hsz, hteam, hlen1⟩ := cleanSpeciesRun_counted bad (slots.take ts)
      ⟨ts, [], 0, 0⟩ hgood (by rw [htake]; simp)
    have hsat : (cleanSpeciesRun bad
        (cleanSpeciesRun bad ⟨ts, [], 0, 0⟩ (slots.take ts)).2 (slots.drop ts)).1 =
        List.replicate (slots.drop ts).length 0xFF :=
      cleanSpeciesRun_saturated bad _ _ (by rw [hsz, hteam, htake]; simp)
    have hout : (cleanPartyHeader bad countByte slots).2 =
        (cleanSpeciesRun bad ⟨ts, [], 0, 0⟩ (slots.take ts)).1 ++
          List.replicate (slots.drop ts).length 0xFF := by
      unfold cleanPartyHeader
      dsimp only
      conv_lhs => rw [← List.take_append_drop ts slots]
      rw [cleanSpeciesRun_append, ← hsat]
    rw [hout]
    rcases Nat.lt_or_ge k ((cleanSpeciesRun bad ⟨ts, [], 0, 0⟩ (slots.take ts)).1.length +
        (slots.drop ts).length) with hkin | hkout
    · rw [List.getD_append_right _ _ _ _ (by rw [hlen1, htake]; omega)]
      rw [List.getD_eq_getElem _ _ (by
        rw [List.length_replicate]
        rw [hlen1, htake] at hkin
        omega)]
      rw [List.getElem_replicate]
    · rw [List.getD_eq_default _ _ (by
        rw [List.length_append, List.length_replicate]
        omega)]

/-- Witness for `party_clamp_amended`: a party of two real species; the
third slot is forced to `0xFF`. -/
theorem party_clamp_amended_witness :
    (cleanPartyHeader (fun _ => false) 2 [5, 6, 255, 255, 255, 255]).2.getD 2 0xFF = 0xFF :=
  (party_clamp_amended (fun _ => false) 2 [5, 6, 255, 255, 255, 255] (by decide)
    (by decide)).2.2.2 2 (by decide)

/-- C5 counterexample: when the two traded slots hold the same species
(5), the post-trade species list equals the reordered pre-trade list, so
it differs from it in zero positions, not exactly one. -/
theorem trade_mutation_counterexample :
    (tradeMon (⟨2, [5, 6, 255, 255, 255, 255], [10, 11]⟩ : GSCParty Nat)
        (⟨2, [7, 5, 255, 255, 255, 255], [20, 21]⟩ : GSCParty Nat) 0 1).1.species =
      (reorderParty (⟨2, [5, 6, 255, 255, 255, 255], [10, 11]⟩ : GSCParty Nat) 0).species := by
  decide

/-- C5 (amended, trade-mutation preservation): for in-bounds slots the
local post-trade update keeps both party sizes, appends the incoming
(other side's traded) record after the non-traded slots in their original
relative order, puts the incoming record and species in the last slot,
and produces a species list equal to the reordered pre-trade list with
only the last slot replaced — so the two lists differ in at most that one
position (and in exactly that position iff the two traded species
differ). -/
theorem trade_mutation_amended {α : Type} [Inhabited α] (a b : GSCParty α) (i j : Nat)
    (hat1 : 1 ≤ a.total) (hat6 : a.total ≤ 6) (hbt1 : 1 ≤ b.total) (hbt6 : b.total ≤ 6)
    (has : a.species.length = 6) (hbs : b.species.length = 6)
    (ham : a.mons.length = a.total) (hbm : b.mons.length = b.total)
    (hab : ∀ s ∈ a.species, s < 256) (hbb : ∀ s ∈ b.species, s < 256)
    (hi : i < a.total) (hj : j < b.total) :
    ((tradeMon a b i j).1.total = a.total ∧ (tradeMon a b i j).2.total = b.total) ∧
    ((tradeMon a b i j).1.mons = a.mons.eraseIdx i ++ [b.mons.getD j default] ∧
     (tradeMon a b i j).2.mons = b.mons.eraseIdx j ++ [a.mons.getD i default]) ∧
    ((tradeMon a b i j).1.mons.getD (a.total - 1) default = b.mons.getD j default ∧
     (tradeMon a b i j).2.mons.getD (b.total - 1) default = a.mons.getD i default) ∧
    ((tradeMon a b i j).1.species =
        (reorderParty a i).species.set (a.total - 1) (b.species.getD j 0) ∧
     (tradeMon a b i j).2.species =
        (reorderParty b j).species.set (b.total - 1) (a.species.getD i 0)) ∧
    (∀ k, k ≠ a.total - 1 →
      (tradeMon a b i j).1.species.getD k 0 = (reorderParty a i).species.getD k 0) := by
  obtain ⟨hat', has', ham', hau, hash, halast, hahigh⟩ :=
    reorderParty_spec a i hi hat6 has ham
  obtain ⟨hbt', hbs', hbm', hbu, hbsh, hblast, hbhigh⟩ :=
    reorderParty_spec b j hj hbt6 hbs hbm
  have hxb : b.species.getD j 0 < 256 := getD_lt_256 b.species hbb j
  have hxa : a.species.getD i 0 < 256 := getD_lt_256 a.species hab i
  have hmaskb : b.species.getD j 0 &&& 255 = b.species.getD j 0 := by
    rw [and255, Nat.mod_eq_of_lt hxb]
  have hmaska : a.species.getD i 0 &&& 255 = a.species.getD i 0 := by
    rw [and255, Nat.mod_eq_of_lt hxa]
  have e1t : (tradeMon a b i j).1.total = a.total := hat'
  have e2t : (tradeMon a b i j).2.total = b.total := hbt'
  have e1m0 : (tradeMon a b i j).1.mons =
      (reorderParty a i).mons.set ((reorderParty a i).total - 1)
        ((reorderParty b j).mons.getD ((reorderParty b j).total - 1) default) := rfl
  have e2m0 : (tradeMon a b i j).2.mons =
      (reorderParty b j).mons.set ((reorderParty b j).total - 1)
        ((reorderParty a i).mons.getD ((reorderParty a i).total - 1) default) := rfl
  have e1m : (tradeMon a b i j).1.mons =
      (reorderParty a i).mons.set (a.total - 1) (b.mons.getD j default) := by
    rw [e1m0, hat', hbt', hblast.2]
  have e2m : (tradeMon a b i j).2.mons =
      (reorderParty b j).mons.set (b.total - 1) (a.mons.getD i default) := by
    rw [e2m0, hbt', hat', halast.2]
  have e1s : (tradeMon a b i j).1.species =
      (reorderParty a i).species.set (a.total - 1) (b.species.getD j 0) := by
    show (partySetId _ _ _).species = _
    unfold partySetId partyGetId
    dsimp only
    rw [hat', hbt', if_pos (by omega : b.total - 1 < 6), if_pos (by omega : a.total - 1 < 6),
      hblast.1, hmaskb, hmaskb]
  have e2s : (tradeMon a b i j).2.species =
      (reorderParty b j).species.set (b.total - 1) (a.species.getD i 0) := by
    show (partySetId _ _ _).species = _
    unfold partySetId partyGetId
    dsimp only
    rw [hat', hbt', if_pos (by omega : a.total - 1 < 6), if_pos (by omega : b.total - 1 < 6),
      halast.1, hmaska, hmaska]
  refine ⟨⟨e1t, e2t⟩, ?_, ?_, ⟨e1s, e2s⟩, ?_⟩
  · constructor
    · rw [e1m, mons_after_trade a i _ hi hat6 has ham]
    · rw [e2m, mons_after_trade b j _ hj hbt6 hbs hbm]
  · constructor
    · rw [e1m, getD_setA, if_pos ⟨rfl, by rw [ham']; omega⟩]
    · rw [e2m, getD_setA, if_pos ⟨rfl, by rw [hbm']; omega⟩]
  · intro k hk
    rw [e1s, getD_set, if_neg (by intro hcon; exact hk hcon.1.symm)]

/-- Witness for `trade_mutation_amended`: two singleton parties trade
their only slots; the first party ends up holding exactly the other
side's record. -/
theorem trade_mutation_amended_witness :
    (tradeMon (⟨1, [5, 255, 255, 255, 255, 255], [10]⟩ : GSCParty Nat)
        (⟨1, [7, 255, 255, 255, 255, 255], [20]⟩ : GSCParty Nat) 0 0).1.mons = [20] :=
  ((trade_mutation_amended
      (⟨1, [5, 255, 255, 255, 255, 255], [10]⟩ : GSCParty Nat)
      (⟨1, [7, 255, 255, 255, 255, 255], [20]⟩ : GSCParty Nat) 0 0
      (by decide) (by decide) (by decide) (by decide) (by decide) (by decide)
      (by decide) (by decide) (by decide) (by decide) (by decide)
      (by decide)).2.1.1).trans (by decide)

/-- C3 (Gen 3 decryption scheme): parsing a 100-byte record decrypts each
aligned little-endian 32-bit word `w` of the 48-byte encrypted region to
`w ^ PID ^ OT_ID`; the substructures are selected by the permutation-table
entry at index `PID mod 24`; the checksum is the wrapping 16-bit sum of
the low and high halves of the 12 plaintext words; on a mismatch with the
stored checksum the record is marked failed — hence invalid for every
choice of the data-table validation gates — but is still parsed and
retained. -/
theorem gen3_decrypt_scheme (values : List Nat) (h100 : values.length = 100)
    (hb : ∀ b ∈ values, b < 256) :
    (∀ i, i < 12 → readInt (decryptedData values) (4 * i) =
      readInt values (32 + 4 * i) ^^^ readInt values 0 ^^^ readInt values 4) ∧
    ((decryptAndValidate values).growth =
        subSlice (decryptedData values)
          (init_enc_positions.getD (readInt values 0 % 24) 0 &&& 3) ∧
      (decryptAndValidate values).attacks =
        subSlice (decryptedData values)
          ((init_enc_positions.getD (readInt values 0 % 24) 0 >>> 2) &&& 3) ∧
      (decryptAndValidate values).evs =
        subSlice (decryptedData values)
          ((init_enc_positions.getD (readInt values 0 % 24) 0 >>> 4) &&& 3) ∧
      (decryptAndValidate values).misc =
        subSlice (decryptedData values)
          ((init_enc_positions.getD (readInt values 0 % 24) 0 >>> 6) &&& 3)) ∧
    (decChecksum values =
      ((List.range 12).map
        (fun i => decWord values i % 65536 + decWord values i / 65536)).sum % 65536) ∧
    ((decryptAndValidate values).checksumFailed = true ↔
      decChecksum values ≠ readShort values 28) ∧
    (decryptAndValidate values).values = values ∧
    (∀ g1 g2 g3 g4, (decryptAndValidate values).checksumFailed = true →
      monIsValid g1 g2 g3 g4 (decryptAndValidate values) = false) := by
  refine ⟨?_, ⟨rfl, rfl, rfl, rfl⟩, ?_, ?_, rfl, ?_⟩
  · intro i hi
    rw [readInt_decryptedData values hb i hi]
    rfl
  · unfold decChecksum
    simp only [and65535, shiftr16]
    have h := foldl_mask_sum (fun i => decWord values i % 65536)
      (fun i => decWord values i / 65536 % 65536) (List.range 12) 0
    rw [Nat.zero_mod] at h
    rw [h, Nat.zero_add]
    congr 1
    apply congrArg List.sum
    apply List.map_congr_left
    intro i _
    have hw := decWord_lt values hb i
    rw [Nat.mod_eq_of_lt (by omega : decWord values i / 65536 < 65536)]
  · simp [decryptAndValidate]
  · intro g1 g2 g3 g4 hfail
    simp [monIsValid, hfail]

/-- C4 (Gen 3 record round-trip): decrypting a 100-byte record whose
stored checksum matches the checksum of the decrypted words, then
re-encrypting it, reproduces the record byte-for-byte — for every PID,
because the permutation-table entry picked by `PID mod 24` unshuffles and
reshuffles inversely. -/
theorem gen3_record_roundtrip (values : List Nat) (h100 : values.length = 100)
    (hb : ∀ b ∈ values, b < 256)
    (hcks : decChecksum values = readShort values 28) :
    encryptData values (decryptAndValidate values).growth (decryptAndValidate values).attacks
      (decryptAndValidate values).evs (decryptAndValidate values).misc
      (decryptAndValidate values).checksumFailed = values := by
  have hdd := decryptedData_length values
  have hcf : (decryptAndValidate values).checksumFailed = false := by
    simp [decryptAndValidate, hcks]
  have hmem : init_enc_positions.getD
      (readInt values 0 % init_enc_positions.length) 0 ∈ init_enc_positions := by
    have hpos : 0 < init_enc_positions.length := by rw [enc_positions_length]; omega
    have hlt : readInt values 0 % init_enc_positions.length < init_enc_positions.length :=
      Nat.mod_lt _ hpos
    rw [List.getD_eq_getElem _ _ hlt]
    exact List.getElem_mem hlt
  have hreasm : reassembled
      (init_enc_positions.getD (readInt values 0 % init_enc_positions.length) 0)
      (decryptAndValidate values).growth (decryptAndValidate values).attacks
      (decryptAndValidate values).evs (decryptAndValidate values).misc =
      decryptedData values :=
    reassembled_subSlice (decryptedData values) hdd _ hmem
  have hencBytes : (List.range 12).flatMap
      (fun i => wordBytesLE (readInt (decryptedData values) (4 * i) ^^^
        readInt values 0 ^^^ readInt values 4)) =
      (List.range 12).flatMap (fun i => wordBytesLE (readInt values (32 + 4 * i))) := by
    apply flatMap_congr_mem
    intro i hi
    rw [readInt_decryptedData values hb i (List.mem_range.1 hi)]
    unfold decWord
    rw [xor_cancel2]
  have hcksum : encChecksum (decryptedData values) = decChecksum values := by
    unfold encChecksum decChecksum
    apply List.foldl_ext
    intro acc i hi
    rw [readInt_decryptedData values hb i (List.mem_range.1 hi)]
  unfold encryptData
  dsimp only
  rw [hreasm, hcf, if_neg (by simp), hencBytes, hcksum, hcks]
  exact write_enc_identity values h100 hb

/-- Witness for `gen3_record_roundtrip`: a concrete all-zero 100-byte
record (PID 0, OT 0, zero words, stored checksum 0) round-trips. -/
theorem gen3_record_roundtrip_witness :
    encryptData (List.replicate 100 0)
      (decryptAndValidate (List.replicate 100 0)).growth
      (decryptAndValidate (List.replicate 100 0)).attacks
      (decryptAndValidate (List.replicate 100 0)).evs
      (decryptAndValidate (List.replicate 100 0)).misc
      (decryptAndValidate (List.replicate 100 0)).checksumFailed = List.replicate 100 0 :=
  gen3_record_roundtrip (List.replicate 100 0) (by decide)
    (fun b hb => by
      rw [List.eq_of_mem_replicate hb]
      decide)
    (by decide)

/-- Witness for `gen3_decrypt_scheme` at the all-zero record: the first
decrypted word is `0 ^ 0 ^ 0 = 0`. -/
theorem gen3_decrypt_scheme_witness :
    readInt (decryptedData (List.replicate 100 0)) 0 =
      readInt (List.replicate 100 0) 32 ^^^ readInt (List.replicate 100 0) 0 ^^^
        readInt (List.replicate 100 0) 4 := by
  have h := (gen3_decrypt_scheme (List.replicate 100 0) (by decide)
    (fun b hb => by rw [List.eq_of_mem_replicate hb]; decide)).1 0 (by omega)
  simpa using h

/-- Every length-4 list of naturals that is a permutation of `[0, 1, 2, 3]`
appears among the decoded table entries. -/
theorem mem_decoded_of_perm (p : List Nat) (hp : p.Perm [0, 1, 2, 3]) :
    p ∈ init_enc_positions.map decodePerm := by
  have h4 : p.length = 4 := hp.length_eq
  rcases p with _ | ⟨a, _ | ⟨b, _ | ⟨c, _ | ⟨d, _ | ⟨e, t⟩⟩⟩⟩⟩ <;> simp at h4
  have ha : a ∈ ([0, 1, 2, 3] : List Nat) := hp.subset (by simp)
  have hb : b ∈ ([0, 1, 2, 3] : List Nat) := hp.subset (by simp)
  have hc : c ∈ ([0, 1, 2, 3] : List Nat) := hp.subset (by simp)
  have hd : d ∈ ([0, 1, 2, 3] : List Nat) := hp.subset (by simp)
  simp only [List.mem_cons, List.not_mem_nil, or_false] at ha hb hc hd
  rcases ha with rfl | rfl | rfl | rfl <;>
    rcases hb with rfl | rfl | rfl | rfl <;>
      rcases hc with rfl | rfl | rfl | rfl <;>
        rcases hd with rfl | rfl | rfl | rfl <;>
          revert hp <;> decide

/-- C7 (Gen 3 permutation bijectivity): `init_enc_positions` has exactly
24 entries; decoding each entry's four 2-bit fields yields a permutation
of `[0, 1, 2, 3]`; the decoded entries have no duplicates; and every
permutation of `[0, 1, 2, 3]` is covered. -/
theorem enc_positions_bijective :
    init_enc_positions.length = 24 ∧
    (∀ e ∈ init_enc_positions, (decodePerm e).Perm [0, 1, 2, 3]) ∧
    (init_enc_positions.map decodePerm).Nodup ∧
    ∀ p : List Nat, p.Perm [0, 1, 2, 3] → p ∈ init_enc_positions.map decodePerm :=
  ⟨by decide, by decide, by decide, mem_decoded_of_perm⟩

end GBLink
